import Mathlib

/-!
Verification of the UFO normalizer (`ufonormalizer.py`).

This file is a shallow embedding of the pure core of the normalizer:
Python strings become `String`/`List Char`, Python floats become `ℚ`
(exact decimal arithmetic; genuinely floating-point-only behaviour such
as `nan`/`inf` is outside the model and noted where relevant), Python
`None`-returning failure paths and raised exceptions become `Option`
(`none` marks both, with the meaning stated at each definition), and
Python dicts become association lists.  Each definition is translated
from the corresponding function of the source file; the doc comments
name the Python function being embedded.
-/

/-! ## Basic Python string primitives (over `List Char`) -/

/-- Whitespace characters recognised by Python's `str.strip` (ASCII part). -/
def isPySpace (c : Char) : Bool :=
  c = ' ' || c = '\t' || c = '\n' || c = '\x0d' || c = '\x0b' || c = '\x0c'

/-- Python `str.strip()` with no arguments. -/
def pyStrip (l : List Char) : List Char :=
  ((l.dropWhile isPySpace).reverse.dropWhile isPySpace).reverse

/-- Python `str.rstrip()` with no arguments. -/
def pyRstrip (l : List Char) : List Char :=
  (l.reverse.dropWhile isPySpace).reverse

/-- Python `value.rstrip("0")`: strip trailing `'0'` characters. -/
def pyRstripZeros (l : List Char) : List Char :=
  (l.reverse.dropWhile (fun c => c = '0')).reverse

/-- Python `str.split(sep)` for a single-character separator. -/
def splitChar (sep : Char) : List Char → List (List Char)
  | [] => [[]]
  | c :: rest =>
    match splitChar sep rest with
    | [] => [[]]
    | g :: gs => if c = sep then [] :: g :: gs else (c :: g) :: gs

/-- Python `sep.join(parts)` for a single-character separator. -/
def joinSep (sep : Char) : List (List Char) → List Char
  | [] => []
  | [p] => p
  | p :: q :: ps => p ++ sep :: joinSep sep (q :: ps)

/-- The line-break characters of Python `str.splitlines()`: `\n`, `\r`,
`\v`, `\f`, the separators `\x1c`-`\x1e`, `\x85`, and the Unicode line
and paragraph separators. -/
def isLineBreak (c : Char) : Bool :=
  c = '\n' || c = '\r' || c = '\x0b' || c = '\x0c' ||
  c = '\x1c' || c = '\x1d' || c = '\x1e' || c = '\x85' ||
  c = '\u2028' || c = '\u2029'

/-- Python `str.splitlines()`: cut at every break character, treating
`\r\n` as a single break; a trailing break opens no empty final line. -/
def pySplitlines : List Char → List (List Char)
  | [] => []
  | [c] => if isLineBreak c then [[]] else [[c]]
  | c :: d :: rest =>
    if c = '\r' ∧ d = '\n' then [] :: pySplitlines rest
    else if isLineBreak c then [] :: pySplitlines (d :: rest)
    else
      match pySplitlines (d :: rest) with
      | [] => [[c]]
      | g :: gs => (c :: g) :: gs

/-- Python `str.lower()` (ASCII model, via `Char.toLower`). -/
def pyLower (l : List Char) : List Char := l.map Char.toLower

/-- Python slicing `s[:n]` where `n` may be negative (`s[:-k]` drops the
last `k` characters). -/
def pySliceTo (n : Int) (l : List Char) : List Char :=
  if 0 ≤ n then l.take n.toNat else l.take (l.length - (-n).toNat)

/-- Python `line.split(" ", 1)`: split at the first space only; `none`
models the `ValueError` of unpacking when no space is present. -/
def pySplitFirstSpace : List Char → Option (List Char × List Char)
  | [] => none
  | c :: rest =>
    if c = ' ' then some ([], rest)
    else (pySplitFirstSpace rest).map (fun p => (c :: p.1, p.2))

/-! ## Decimal digits: rendering and parsing -/

/-- Character for a single decimal digit below ten. -/
def digitCharCore : Nat → Char
  | 0 => '0' | 1 => '1' | 2 => '2' | 3 => '3' | 4 => '4'
  | 5 => '5' | 6 => '6' | 7 => '7' | 8 => '8' | _ => '9'

/-- Character for a single decimal digit (argument taken mod 10). -/
def digitChar (n : Nat) : Char := digitCharCore (n % 10)

/-- Numeric value of a decimal digit character. -/
def charDigitVal (c : Char) : Nat := c.toNat - 48

/-- Most-significant-first decimal digits of `n`, written with explicit
fuel so that the kernel can evaluate it (`n + 1` is always enough fuel). -/
def natDigitsAux : Nat → Nat → List Char
  | 0, _ => []
  | fuel + 1, n => if n = 0 then [] else natDigitsAux fuel (n / 10) ++ [digitChar (n % 10)]

/-- Decimal representation of a natural number, as Python's `str` writes it. -/
def natDigits (n : Nat) : List Char :=
  if n = 0 then ['0'] else natDigitsAux (n + 1) n

/-- Python `str(z)` for an integer. -/
def intDigits (z : Int) : List Char :=
  if z < 0 then '-' :: natDigits (-z).toNat else natDigits z.toNat

/-- Value of a list of decimal digit characters (most significant first). -/
def digitsVal (l : List Char) : Nat :=
  l.foldl (fun a c => 10 * a + charDigitVal c) 0

/-- Left-pad the decimal digits of `n` with zeros to width `k`
(Python `str(n).zfill(k)`). -/
def zfill (k : Nat) (l : List Char) : List Char :=
  List.replicate (k - l.length) '0' ++ l

/-! ## Rational arithmetic helpers

The standard `ℚ` field operations are `@[irreducible]` in this toolchain,
so the executable definitions below work through `mkRat` and integer
arithmetic; bridging lemmas later identify them with the usual
operations. -/

/-- Floor of a rational, computable by the kernel. -/
def ratFloor (q : ℚ) : ℤ := q.num.fdiv q.den

/-- Round-half-up on rationals (`⌊q + 1/2⌋` computed on numerator and
denominator).  C's `%f` formatting rounds the double half-to-even; the two
agree on every value actually representable as a binary double (an exact
decimal tie at a formatting position would need a factor `5^k` in the
denominator), so half-up is a faithful model on the reachable inputs. -/
def pyRound (q : ℚ) : ℤ := Int.fdiv (2 * q.num + q.den) (2 * q.den)

/-- Python `int(f)`: truncation toward zero. -/
def pyTrunc (q : ℚ) : ℤ :=
  if q < 0 then -ratFloor (-q) else ratFloor q

/-- Magnitude of `q` scaled by `10 ^ prec` and rounded to an integer:
the digit string of `"%.<prec>f" % q` without sign or dot. -/
def scaledMag (prec : Nat) (q : ℚ) : Nat :=
  (pyRound (mkRat (q.num.natAbs * 10 ^ prec : Nat) q.den)).toNat

/-- Python `"%.<prec>f" % q`: sign of the value, integer digits, a dot,
then exactly `prec` fraction digits of the correctly rounded magnitude. -/
def formatFixed (prec : Nat) (q : ℚ) : List Char :=
  let n : Nat := scaledMag prec q
  (if q < 0 then ['-'] else []) ++
    natDigits (n / 10 ^ prec) ++ '.' :: zfill prec (natDigits (n % 10 ^ prec))

/-- The value that `"%.<prec>f"` prints: `q` rounded to `prec` decimal
digits, with the sign restored. -/
def roundTo (prec : Nat) (q : ℚ) : ℚ :=
  if q < 0 then -(mkRat (scaledMag prec q) (10 ^ prec) : ℚ)
  else mkRat (scaledMag prec q) (10 ^ prec)

/-! ## Python `float(str)` (finite decimal literals)

The model covers the decimal forms `[ws][+|-]digits[.digits][(e|E)[+|-]digits][ws]`
(also `.digits`); `nan`, `inf`, and digit-group underscores are not
representable in `ℚ` or not produced by the normalizer and are parsed as
failures. -/

/-- Exponent tail of a float literal: empty, or `e`/`E`, optional sign and
at least one digit, ending the string. -/
def pyFloatExp : List Char → Option Int
  | [] => some 0
  | c :: rest =>
    if c = 'e' ∨ c = 'E' then
      match rest with
      | [] => none
      | d :: ds =>
        let (sgn, body) : Int × List Char :=
          if d = '-' then (-1, ds) else if d = '+' then (1, ds) else (1, d :: ds)
        let digs := body.takeWhile Char.isDigit
        if digs = [] ∨ body.dropWhile Char.isDigit ≠ [] then none
        else some (sgn * digitsVal digs)
    else none

/-- Value of the decimal literal `ip . fp × 10 ^ e` where `fl` is the
number of fraction digits, built with kernel-reducible operations. -/
def decLitVal (ip fp fl : Nat) (e : Int) : ℚ :=
  if 0 ≤ e then mkRat ((ip * 10 ^ fl + fp) * 10 ^ e.toNat : Nat) (10 ^ fl)
  else mkRat ((ip * 10 ^ fl + fp : Nat) : Int) (10 ^ fl * 10 ^ (-e).toNat)

/-- Unsigned part of a float literal: digits with an optional dot. -/
def pyFloatMag (l : List Char) : Option ℚ :=
  let ip := l.takeWhile Char.isDigit
  let r1 := l.dropWhile Char.isDigit
  match r1 with
  | '.' :: r2 =>
    let fp := r2.takeWhile Char.isDigit
    let r3 := r2.dropWhile Char.isDigit
    if ip = [] ∧ fp = [] then none
    else (pyFloatExp r3).map (fun e => decLitVal (digitsVal ip) (digitsVal fp) fp.length e)
  | _ =>
    if ip = [] then none
    else (pyFloatExp r1).map (fun e => decLitVal (digitsVal ip) 0 0 e)

/-- Python `float(s)` on a character list. -/
def pyFloatL (l : List Char) : Option ℚ :=
  match pyStrip l with
  | [] => pyFloatMag []
  | c :: r =>
    if c = '-' then (pyFloatMag r).map Neg.neg
    else if c = '+' then pyFloatMag r
    else pyFloatMag (c :: r)

/-- Python `float(s)`; `none` models `ValueError`. -/
def pyFloat (s : String) : Option ℚ := pyFloatL s.data

/-! ## XML writer primitives (`XMLWriter`, `xmlEscape*`, `xmlConvert*`) -/

/-- Python `str.replace(pat, rep)` for a one-character pattern: scan left
to right, never rescanning replacement text. -/
def pyReplaceChar (pat : Char) (rep : List Char) : List Char → List Char
  | [] => []
  | c :: rest =>
    if c = pat then rep ++ pyReplaceChar pat rep rest
    else c :: pyReplaceChar pat rep rest

/-- Source `xmlEscapeText`: replace `&`, then `<`, then `>`. -/
def xmlEscapeTextL (l : List Char) : List Char :=
  pyReplaceChar '>' (("&gt;").data)
    (pyReplaceChar '<' (("&lt;").data)
      (pyReplaceChar '&' (("&amp;").data) l))

/-- Source `xmlEscapeText` on `String`. -/
def xmlEscapeText (s : String) : String := ⟨xmlEscapeTextL s.data⟩

/-- Source `xmlEscapeAttribute`: `xmlEscapeText`, then escape `"`. -/
def xmlEscapeAttributeL (l : List Char) : List Char :=
  pyReplaceChar '"' (("&quot;").data) (xmlEscapeTextL l)

/-- Source `xmlEscapeAttribute` on `String`. -/
def xmlEscapeAttribute (s : String) : String := ⟨xmlEscapeAttributeL s.data⟩

/-- Source `xmlConvertInt`: Python `str` of an integer. -/
def xmlConvertInt (z : ℤ) : String := ⟨intDigits z⟩

/-- Source `xmlConvertFloat`: `"%.10f"`, strip trailing zeros, and when
only the dot remains, write `str(int(float(value)))`.  The inner
`float`/`int` round trip is modelled by `pyFloatL`/`pyTrunc`; the final
fallback branch is unreachable because the stripped string always parses. -/
def xmlConvertFloat (q : ℚ) : String :=
  let v := pyRstripZeros (formatFixed 10 q)
  if v.getLast? = some '.' then
    match pyFloatL v with
    | some r => xmlConvertInt (pyTrunc r)
    | none => ⟨v⟩
  else ⟨v⟩

/-- Value of a Python attribute dictionary entry as seen by the writer:
a string, a float, an int, or `None` (the latter only ever present through
the color-handling slip examined in claim C2). -/
inductive PyVal where
  | str (s : String)
  | real (q : ℚ)
  | int (n : ℤ)
  | none
  deriving DecidableEq

/-- Source `xmlConvertValue`: floats and ints are formatted, everything
else goes through `xmlEscapeText`; passing Python `None` raises
`AttributeError` (modelled by `Option.none`). -/
def xmlConvertValue : PyVal → Option String
  | .real q => some (xmlConvertFloat q)
  | .int n => some (xmlConvertInt n)
  | .str s => some (xmlEscapeText s)
  | .none => none

/-- Source `xmlAttributeOrder` table, in order. -/
def xmlAttributeOrderList : List String :=
  ["name", "base", "format", "fileName", "x", "y", "angle", "xScale", "xyScale",
   "yxScale", "yScale", "xOffset", "yOffset", "type", "smooth", "color", "identifier"]

/-- Priority of an attribute name (`xmlAttributeOrder.get(attr, 100)`). -/
def attrPriority (a : String) : Nat :=
  match xmlAttributeOrderList.indexOf? a with
  | some i => i
  | none => 100

/-- Ordering of the `(priority, name, value)` triples built by
`attributesToString`; Python compares the tuples lexicographically and
never reaches the value because attribute names are unique. -/
def attrSortLE (p q : Nat × String × PyVal) : Prop :=
  p.1 < q.1 ∨ (p.1 = q.1 ∧ ¬ q.2.1 < p.2.1)

instance : DecidableRel attrSortLE := fun p q => by
  unfold attrSortLE; infer_instance

/-- Source `XMLWriter.attributesToString`: sort by `(priority, name)`,
escape names with `xmlEscapeAttribute`, convert values with
`xmlConvertValue`, join as `name="value"` pairs; `Option.none` models the
`AttributeError` raised when a value is Python `None`. -/
def attributesToString (attrs : List (String × PyVal)) : Option String :=
  let sorter := attrs.map (fun p => (attrPriority p.1, p.1, p.2))
  let sorted := List.insertionSort attrSortLE sorter
  (sorted.mapM (fun t => (xmlConvertValue t.2.2).map
      (fun v => xmlEscapeAttribute t.2.1 ++ "=\"" ++ v ++ "\""))).map
    (fun parts => String.intercalate " " parts)

/-- Source `XMLWriter.simpleElement` for an element with attributes and no
text: the single line written (without indentation), or `Option.none` when
serializing the attributes raises. -/
def simpleElementLine (tag : String) (attrs : List (String × PyVal)) : Option String :=
  if attrs = [] then some ("<" ++ tag ++ "/>")
  else (attributesToString attrs).map (fun a => "<" ++ tag ++ " " ++ a ++ "/>")

/-! ## Color canonicalization -/

/-- Source `_normalizeColorString`: exactly three commas, four fields each
parsing as a float in `[0, 1]`, re-emitted through `xmlConvertFloat`. -/
def _normalizeColorString (value : String) : Option String :=
  if value.data.count ',' ≠ 3 then none
  else
    match (splitChar ',' value.data).mapM pyFloatL with
    | none => none
    | some vals =>
      if vals.any (fun x => decide (x < 0) || decide (x > 1)) then none
      else some ⟨joinSep ',' (vals.map (fun q => (xmlConvertFloat q).data))⟩

/-! ## Parsed GLIF elements

The orchestrator hands the per-element normalizers `xml.etree` elements;
an element is a tag, an attribute dictionary (unique keys) and child
elements. -/

/-- A parsed XML element as the normalizer receives it. -/
inductive RawElem where
  | mk (tag : String) (attrs : List (String × String)) (children : List RawElem)

/-- Tag of an element. -/
def RawElem.tag : RawElem → String
  | .mk t _ _ => t

/-- Attribute dictionary of an element. -/
def RawElem.attrs : RawElem → List (String × String)
  | .mk _ a _ => a

/-- Child elements. -/
def RawElem.children : RawElem → List RawElem
  | .mk _ _ c => c

/-- Python `element.attrib.get(key)` (first binding wins, as in a dict). -/
def attribGet : List (String × String) → String → Option String
  | [], _ => none
  | p :: rest, k => if p.1 = k then some p.2 else attribGet rest k

/-- Attribute lookup on an element. -/
def RawElem.attrGet (e : RawElem) (k : String) : Option String :=
  attribGet e.attrs k

/-! ## Shared transformation and simple element normalizers -/

/-- Defaults of `_glifDefaultTransformation`, in iteration order. -/
def glifDefaultTransformation : List (String × ℚ) :=
  [("xScale", 1), ("xyScale", 0), ("yxScale", 0), ("yScale", 1), ("xOffset", 0), ("yOffset", 0)]

/-- One field of `_normalizeGlifTransformation`: absent and unparsable
values are skipped, and so are values equal to the default. -/
def transformField (e : RawElem) (name : String) (dflt : ℚ) : Option ℚ :=
  match e.attrGet name with
  | none => none
  | some s =>
    match pyFloat s with
    | none => none
    | some v => if v = dflt then none else some v

/-- Source `_normalizeGlifTransformation` as attribute entries, in the
iteration order of `_glifDefaultTransformation`. -/
def _normalizeGlifTransformation (e : RawElem) : List (String × PyVal) :=
  glifDefaultTransformation.flatMap (fun p =>
    match transformField e p.1 p.2 with
    | none => []
    | some v => [(p.1, PyVal.real v)])

/-- Source `_normalizeGlifUnicode`: keep only a parsable hex value,
uppercased and zero-padded to four digits.  The hex model is not needed by
the claims; only missing/empty hex (dropped) is distinguished here. -/
def glifUnicodeKept (e : RawElem) : Bool :=
  match e.attrGet ("hex") with
  | none => false
  | some v => v ≠ ""

/-- Attributes written by `_normalizeGlifAdvance` when it writes. -/
structure AdvanceAttrs where
  width : Option ℚ
  height : Option ℚ
  deriving DecidableEq

/-- Source `_normalizeGlifAdvance`: parse `width` and `height` (each
defaulting to `"0"`); a `ValueError` from either conversion drops the
element; zero values produce no attribute; an empty attribute set drops
the element. -/
def _normalizeGlifAdvance (e : RawElem) : Option AdvanceAttrs :=
  let w := (e.attrGet ("width")).getD ("0")
  let h := (e.attrGet ("height")).getD ("0")
  match pyFloat w, pyFloat h with
  | some wv, some hv =>
    let a : AdvanceAttrs := ⟨if wv ≠ 0 then some wv else none, if hv ≠ 0 then some hv else none⟩
    if a.width = none ∧ a.height = none then none else some a
  | _, _ => none

/-- Source `_normalizeGlifImage`: drop when `fileName` is missing or
empty; otherwise emit `fileName`, the non-default transformation fields,
and — when a `color` attribute is present — the result of
`_normalizeColorString` stored without a `None` guard. -/
def _normalizeGlifImage (e : RawElem) : Option (List (String × PyVal)) :=
  match e.attrGet ("fileName") with
  | none => none
  | some fn =>
    if fn = "" then none
    else some ([(("fileName" : String), PyVal.str fn)] ++ _normalizeGlifTransformation e ++
      (match e.attrGet ("color") with
       | none => []
       | some c => [(("color" : String),
           match _normalizeColorString c with
           | some cs => PyVal.str cs
           | none => PyVal.none)]))

/-- Source `_normalizeGlifAnchor`: require present, non-empty, parsable
`x` and `y`; optional `name` and `identifier` are kept verbatim; a present
`color` is stored as the unguarded result of `_normalizeColorString`. -/
def _normalizeGlifAnchor (e : RawElem) : Option (List (String × PyVal)) :=
  match e.attrGet ("x"), e.attrGet ("y") with
  | some xs, some ys =>
    if xs = "" ∨ ys = "" then none
    else
      match pyFloat xs, pyFloat ys with
      | some xv, some yv =>
        some ([(("x" : String), PyVal.real xv), (("y" : String), PyVal.real yv)] ++
          (match e.attrGet ("name") with
           | none => []
           | some n => [(("name" : String), PyVal.str n)]) ++
          (match e.attrGet ("color") with
           | none => []
           | some c => [(("color" : String),
               match _normalizeColorString c with
               | some cs => PyVal.str cs
               | none => PyVal.none)]) ++
          (match e.attrGet ("identifier") with
           | none => []
           | some i => [(("identifier" : String), PyVal.str i)]))
      | _, _ => none
  | _, _ => none

/-- Result of asking the writer to emit an element: nothing was written,
one line was written, or serialization raised. -/
inductive WriteResult where
  | nothing
  | line (s : String)
  | error
  deriving DecidableEq

/-- The `writer.simpleElement("anchor", attrs)` call of
`_normalizeGlifAnchor`, with `WriteResult.error` marking the
`AttributeError` raised on a Python `None` attribute value. -/
def writeGlifAnchor (e : RawElem) : WriteResult :=
  match _normalizeGlifAnchor e with
  | none => .nothing
  | some attrs =>
    match simpleElementLine ("anchor") attrs with
    | some l => .line l
    | none => .error

/-- The `writer.simpleElement("image", attrs)` call of
`_normalizeGlifImage`. -/
def writeGlifImage (e : RawElem) : WriteResult :=
  match _normalizeGlifImage e with
  | none => .nothing
  | some attrs =>
    match simpleElementLine ("image") attrs with
    | some l => .line l
    | none => .error

/-! ## Format-1 outline normalization -/

/-- Normalized point attributes (`_normalizeGlifPointAttributesFormat1`):
`typ = none` is an omitted (default `offcurve`) type attribute; `smooth`
is written only when `typ` is present and equal to `"yes"` in the input. -/
structure PointAttrs where
  x : ℚ
  y : ℚ
  typ : Option String
  smooth : Bool
  name : Option String
  deriving DecidableEq

/-- The known point types. -/
def glifPointTypes : List String := ["move", "line", "curve", "qcurve", "offcurve"]

/-- Source `_normalizeGlifPointAttributesFormat1`.  The Python function
returns `{}` (missing or empty `x`/`y`, unknown type) or `None`
(`ValueError` from `float`); both are falsy at the call site and both are
modelled as `none`. -/
def _normalizeGlifPointAttributesFormat1 (e : RawElem) : Option PointAttrs :=
  match e.attrGet ("x"), e.attrGet ("y") with
  | some xs, some ys =>
    if xs = "" ∨ ys = "" then none
    else
      match pyFloat xs, pyFloat ys with
      | some xv, some yv =>
        let typ := (e.attrGet ("type")).getD ("offcurve")
        if typ ∉ glifPointTypes then none
        else
          let keepType := typ ≠ "offcurve"
          some { x := xv, y := yv,
                 typ := if keepType then some typ else none,
                 smooth := keepType ∧ e.attrGet ("smooth") = some ("yes"),
                 name := e.attrGet ("name") }
      | _, _ => none
  | _, _ => none

/-- Result of `_normalizeGlifContourFormat1`: a contour of exactly one
`move` point is reclassified as an anchor. -/
inductive ContourF1 where
  | anchor (p : PointAttrs)
  | contour (pts : List PointAttrs)
  deriving DecidableEq

/-- Point-collection loop of `_normalizeGlifContourFormat1`: non-`point`
children are skipped; a failing point drops the whole contour. -/
def collectContourPoints : List RawElem → Option (List PointAttrs)
  | [] => some []
  | c :: rest =>
    if c.tag ≠ "point" then collectContourPoints rest
    else
      match _normalizeGlifPointAttributesFormat1 c with
      | none => none
      | some a => (collectContourPoints rest).map (fun l => a :: l)

/-- Source `_normalizeGlifContourFormat1`. -/
def _normalizeGlifContourFormat1 (e : RawElem) : Option ContourF1 :=
  match collectContourPoints e.children with
  | none => none
  | some [] => none
  | some pts =>
    match pts with
    | [p] => if p.typ = some ("move") then some (.anchor p) else some (.contour pts)
    | _ => some (.contour pts)

/-- Source `_normalizeGlifComponentAttributesFormat1`: require a present,
non-empty `base`; append the non-default transformation fields. -/
def _normalizeGlifComponentAttributesFormat1 (e : RawElem) : Option (List (String × PyVal)) :=
  match e.attrGet ("base") with
  | none => none
  | some b =>
    if b = "" then none
    else some ([(("base" : String), PyVal.str b)] ++ _normalizeGlifTransformation e)

/-- Source `_normalizeGlifComponentFormat1` (the `type` bookkeeping key is
represented by the sum type below). -/
def _normalizeGlifComponentFormat1 (e : RawElem) : Option (List (String × PyVal)) :=
  _normalizeGlifComponentAttributesFormat1 e

/-- An entry of the emitted outline. -/
inductive OutItemF1 where
  | contour (pts : List PointAttrs)
  | component (attrs : List (String × PyVal))
  deriving DecidableEq

/-- Per-child classification used by the `_normalizeGlifOutlineFormat1`
loop: `none` means the child contributes nothing, `Sum.inl` a contour or
component kept in place, `Sum.inr` an implied anchor. -/
def classifyOutlineChildF1 (e : RawElem) : Option (OutItemF1 ⊕ PointAttrs) :=
  if e.tag = "contour" then
    match _normalizeGlifContourFormat1 e with
    | none => none
    | some (.anchor p) => some (Sum.inr p)
    | some (.contour pts) => some (Sum.inl (.contour pts))
  else if e.tag = "component" then
    match _normalizeGlifComponentFormat1 e with
    | none => none
    | some c => some (Sum.inl (.component c))
  else none

/-- The two accumulating lists (`outline`, `anchors`) of the
`_normalizeGlifOutlineFormat1` loop, in append order. -/
def collectOutlineF1 : List RawElem → List OutItemF1 × List PointAttrs
  | [] => ([], [])
  | e :: rest =>
    let (o, a) := collectOutlineF1 rest
    match classifyOutlineChildF1 e with
    | none => (o, a)
    | some (Sum.inl it) => (it :: o, a)
    | some (Sum.inr p) => (o, p :: a)

/-- Emission of a saved anchor at the end of the outline: a fresh
single-`move`-point contour keeping `x`, `y` and `name` (and dropping any
`smooth`). -/
def anchorContour (p : PointAttrs) : OutItemF1 :=
  .contour [{ x := p.x, y := p.y, typ := some ("move"), smooth := false, name := p.name }]

/-- Source `_normalizeGlifOutlineFormat1`: the ordered sequence of emitted
outline entries (`none` when nothing is written). -/
def _normalizeGlifOutlineFormat1 (e : RawElem) : Option (List OutItemF1) :=
  if e.children.isEmpty then none
  else
    let (o, a) := collectOutlineF1 e.children
    if o = [] ∧ a = [] then none
    else some (o ++ a.map anchorContour)

/-! ## Guideline normalization -/

/-- A value in a guideline dictionary: fontinfo guidelines carry parsed
plist values (numbers or strings — the int/float distinction is
irrelevant to every check performed on them), glyph guidelines carry
attribute strings. -/
inductive GVal where
  | str (s : String)
  | num (q : ℚ)
  deriving DecidableEq

/-- Dictionary lookup (`guideline.get(key)`). -/
def dictGet : List (String × GVal) → String → Option GVal
  | [], _ => none
  | p :: rest, k => if p.1 = k then some p.2 else dictGet rest k

/-- Python truthiness of a possibly-absent guideline value: `None`, `0`
and `""` are falsy. -/
def gvalTruthy : Option GVal → Bool
  | none => false
  | some (.str s) => s ≠ ""
  | some (.num q) => q ≠ 0

/-- Python `float(x)` on a guideline value; `none` is `ValueError`. -/
def gvalToFloat : GVal → Option GVal
  | .num q => some (.num q)
  | .str s => (pyFloat s).map GVal.num

/-- The `if x: x = float(x)` conversion step of `_normalizeDictGuideline`:
absent values stay absent, falsy values are kept unconverted, truthy
values must convert or the whole guideline is dropped (outer `none`). -/
def convGuidelineField (v : Option GVal) : Option (Option GVal) :=
  match v with
  | none => some none
  | some g => if gvalTruthy (some g) then (gvalToFloat g).map some else some (some g)

/-- Entry made from a present value (`if v is not None: normalized[k] = v`). -/
def guidelineEntry (k : String) : Option GVal → List (String × GVal)
  | none => []
  | some g => [(k, g)]

/-- Color handling of `_normalizeDictGuideline`: an invalid color is
dropped, a valid one re-emitted; a non-string color would raise in
`_normalizeColorString` (modelled as the outer `none`). -/
def guidelineColorEntry : Option GVal → Option (List (String × GVal))
  | none => some []
  | some (.str s) =>
    some (match _normalizeColorString s with
      | some c => [(("color" : String), GVal.str c)]
      | none => [])
  | some (.num _) => none

/-- Source `_normalizeDictGuideline`. -/
def _normalizeDictGuideline (g : List (String × GVal)) : Option (List (String × GVal)) :=
  let x := dictGet g ("x")
  let y := dictGet g ("y")
  let angle := dictGet g ("angle")
  let name := dictGet g ("name")
  let color := dictGet g ("color")
  let identifier := dictGet g ("identifier")
  if ¬ gvalTruthy x ∧ ¬ gvalTruthy y then none
  else if (¬ gvalTruthy x ∨ ¬ gvalTruthy y) ∧ gvalTruthy angle then none
  else if (gvalTruthy x ∧ gvalTruthy y) ∧ ¬ gvalTruthy angle then none
  else
    match convGuidelineField x, convGuidelineField y, convGuidelineField angle with
    | some x', some y', some a' =>
      match guidelineColorEntry color with
      | none => none
      | some colorE =>
        some (guidelineEntry ("x") x' ++ guidelineEntry ("y") y' ++
          guidelineEntry ("angle") a' ++ guidelineEntry ("name") name ++
          colorE ++ guidelineEntry ("identifier") identifier)
    | _, _, _ => none

/-- Source `_normalizeGlifGuideline`: collect the six attributes as
strings and delegate to `_normalizeDictGuideline`. -/
def _normalizeGlifGuideline (e : RawElem) : Option (List (String × GVal)) :=
  let converted := (["x", "y", "angle", "color", "name", "identifier"]).flatMap
    (fun k => match e.attrGet k with
      | none => []
      | some s => [(k, GVal.str s)])
  _normalizeDictGuideline converted

/-! ## User name to file name (`userNameToFileName`, `handleClash1/2`) -/

/-- Source `illegalCharacters`. -/
def illegalCharacters : List Char :=
  ['"', '*', '+', '/', ':', '<', '>', '?', '[', '\\', ']', '|', '\x00'] ++
    (List.range 31).map (fun i => Char.ofNat (i + 1)) ++ ['\x7f']

/-- Source `reservedFileNames` (already lower-cased, as in the source). -/
def reservedFileNames : List String :=
  ["con", "prn", "aux", "clock$", "nul", "a:-z:", "com1",
   "lpt1", "lpt2", "lpt3", "com2", "com3", "com4"]

/-- Source `maxFileNameLength`. -/
def maxFileNameLength : Nat := 255

/-- Transliteration of one character: illegal characters become `_`, a
character differing from its lowercase form is kept and followed by `_`. -/
def filterUserChar (c : Char) : List Char :=
  if c ∈ illegalCharacters then ['_']
  else if c ≠ c.toLower then [c, '_']
  else [c]

/-- The character-filter loop of `userNameToFileName`. -/
def filterUserName (l : List Char) : List Char := l.flatMap filterUserChar

/-- Reserved-stem fix of one dot-separated part. -/
def fixedPart (p : List Char) : List Char :=
  if (⟨pyLower p⟩ : String) ∈ reservedFileNames then '_' :: p else p

/-- The reserved-name loop of `userNameToFileName`: split on `.`, prepend
`_` to reserved stems, rejoin. -/
def fixReservedParts (l : List Char) : List Char :=
  joinSep '.' ((splitChar '.' l).map fixedPart)

/-- Upper bound of the `handleClash1` counter. -/
def clash1MaxCounter : Nat := 999999999999999

/-- Counter loop of `handleClash2`; the fuel always dominates the number
of iterations the `counter >= maxValue` break permits. -/
def handleClash2Loop (existing : List String) (pfx sfx : String) (maxValue : Nat) :
    Nat → Nat → Option String
  | 0, _ => none
  | fuel + 1, counter =>
    let fullName := pfx ++ (⟨natDigits counter⟩ : String) ++ sfx
    if (⟨pyLower fullName.data⟩ : String) ∉ existing then some fullName
    else if counter + 1 ≥ maxValue then none
    else handleClash2Loop existing pfx sfx maxValue fuel (counter + 1)

/-- Source `handleClash2`: search the smallest free integer name; `none`
models the `NameTranslationError` (and the `int("")` crash when the
prefix and suffix leave no room at all). -/
def handleClash2 (existing : List String) (pfx sfx : String) : Option String :=
  if maxFileNameLength ≤ pfx.length + sfx.length then none
  else
    let maxValue := 10 ^ (maxFileNameLength - pfx.length - sfx.length) - 1
    handleClash2Loop existing pfx sfx maxValue maxValue 1

/-- Counter loop of `handleClash1`. -/
def handleClash1Loop (userName : List Char) (existing : List String) (pfx sfx : String) :
    Nat → Nat → Option String
  | 0, _ => none
  | fuel + 1, counter =>
    let name := userName ++ zfill 15 (natDigits counter)
    let fullName := pfx ++ (⟨name⟩ : String) ++ sfx
    if (⟨pyLower fullName.data⟩ : String) ∉ existing then some fullName
    else if counter + 1 ≥ clash1MaxCounter then none
    else handleClash1Loop userName existing pfx sfx fuel (counter + 1)

/-- Source `handleClash1`: make room for a fifteen-digit counter, then
search; fall back to `handleClash2` when the counter space is exhausted. -/
def handleClash1 (userName : String) (existing : List String) (pfx sfx : String) :
    Option String :=
  let u :=
    if pfx.length + userName.length + sfx.length + 15 > maxFileNameLength then
      pySliceTo ((maxFileNameLength : Int) - (pfx.length + userName.length + sfx.length + 15))
        userName.data
    else userName.data
  match handleClash1Loop u existing pfx sfx clash1MaxCounter 1 with
  | some r => some r
  | none => handleClash2 existing pfx sfx

/-- Source `userNameToFileName`.  `existing` is the case-insensitive set
of taken names; `none` models the `IndexError` raised on an empty name
with no prefix and the clash-exhaustion error. -/
def userNameToFileName (userName : String) (existing : List String) (pfx sfx : String) :
    Option String :=
  if pfx = "" ∧ userName = "" then none
  else
    let u0 := if pfx = "" ∧ userName.data.head? = some '.' then '_' :: userName.data.tail
      else userName.data
    let u1 := filterUserName u0
    let u2 := pySliceTo ((maxFileNameLength : Int) - pfx.length - sfx.length) u1
    let u3 := fixReservedParts u2
    let fullName := pfx ++ (⟨u3⟩ : String) ++ sfx
    if (⟨pyLower fullName.data⟩ : String) ∈ existing then handleClash1 ⟨u3⟩ existing pfx sfx
    else some fullName

/-! ## Two-phase rename protocol (`normalizeGlyphNames`) -/

/-- A directory as a finite-support map from file names to contents. -/
def FS (α : Type) : Type := String → Option α

/-- Effect of `os.rename(src, dst)` on a directory. -/
def renameFS {α : Type} (fs : FS α) (src dst : String) : FS α :=
  fun n => if n = dst then fs src else if n = src then none else fs n

/-- The temporary name used for index `i`
(`"org.unifiedfontobject.normalizer.%d" % index`). -/
def tempName (i : Nat) : String :=
  ("org.unifiedfontobject.normalizer.") ++ ⟨natDigits i⟩

/-- Pass 1 of `normalizeGlyphNames`: walk the `(oldName, newName)` pairs
with their enumeration index; move every changed entry to its temporary
name and record the pending temporary-to-final move, in order. -/
def renamePass1 {α : Type} : Nat → List (String × String) → FS α →
    FS α × List (String × String)
  | _, [], fs => (fs, [])
  | i, (o, n) :: rest, fs =>
    if o = n then renamePass1 (i + 1) rest fs
    else
      let fs' := renameFS fs o (tempName i)
      let (fs'', m) := renamePass1 (i + 1) rest fs'
      (fs'', (tempName i, n) :: m)

/-- Pass 2 of `normalizeGlyphNames`: move every temporary name to its
final name, in recording order. -/
def renamePass2 {α : Type} : List (String × String) → FS α → FS α
  | [], fs => fs
  | (t, n) :: rest, fs => renamePass2 rest (renameFS fs t n)

/-- The complete two-pass rename of `normalizeGlyphNames` (and, with
directories for files, of `normalizeGlyphsDirectoryNames`) applied to the
sorted `(oldName, newName)` pairs. -/
def renameGlyphFiles {α : Type} (entries : List (String × String)) (fs : FS α) : FS α :=
  let (fs1, m) := renamePass1 0 entries fs
  renamePass2 m fs1

/-- The two-pass rename starting at an arbitrary enumeration index
(generalization of `renameGlyphFiles` used for reasoning; the program
runs it at index 0). -/
def renameGlyphFilesAux {α : Type} (i : Nat) (entries : List (String × String)) (fs : FS α) :
    FS α :=
  let (fs1, m) := renamePass1 i entries fs
  renamePass2 m fs1

/-! ## Modification-time persistence (`storeModTimes`, `readModTimes`) -/

/-- Source `__version__`. -/
def normalizerVersion : String := "0a1"

/-- Ordering used by `sorted(modTimes.items())`: keys are unique, so the
comparison never reaches the value. -/
def modTimeLE (p q : String × ℚ) : Prop := ¬ q.1 < p.1

instance : DecidableRel modTimeLE := fun p q => by
  unfold modTimeLE; infer_instance

/-- One stored line: `"%.1f %s" % (modTime, fileName)`. -/
def modTimeLine (p : String × ℚ) : List Char :=
  formatFixed 1 p.2 ++ ' ' :: p.1.data

/-- Source `storeModTimes`: the text stored under the mod-times lib key — a
version line followed by one line per entry, sorted. -/
def storeModTimes (modTimes : List (String × ℚ)) : String :=
  ⟨(("version: ").data ++ normalizerVersion.data) ++
    (List.insertionSort modTimeLE modTimes).flatMap (fun p => '\n' :: modTimeLine p)⟩

/-- Version extraction of `readModTimes`:
`lines.pop(0).split(":")[-1].strip()`. -/
def readVersion (l : List Char) : List Char :=
  pyStrip (((splitChar ':' l).getLast?).getD [])

/-- One data line of `readModTimes`: split on the first space, parse the
time as a float; `none` models the `ValueError` raised on a malformed
line. -/
def readModTimeLine (l : List Char) : Option (String × ℚ) :=
  match pySplitFirstSpace l with
  | none => none
  | some (mt, fn) => (pyFloatL mt).map (fun q => ((⟨fn⟩ : String), q))

/-- Source `readModTimes`: absent or empty text and a version mismatch
yield the empty mapping; a malformed data line raises (`none`). -/
def readModTimes (text : Option String) : Option (List (String × ℚ)) :=
  match text with
  | none => some []
  | some t =>
    if t = "" then some []
    else
      match pySplitlines t.data with
      | [] => none
      | v :: rest =>
        if readVersion v ≠ normalizerVersion.data then some []
        else rest.mapM readModTimeLine

/-! ## Note text and the writer's `text` method -/

/-- Whitespace-run chunking used by `textwrap` (the `(\s+)` separator
regex with empty pieces removed): maximal runs of whitespace and
non-whitespace characters. -/
def wrapChunks : List Char → List (List Char)
  | [] => []
  | c :: rest =>
    match wrapChunks rest with
    | [] => [[c]]
    | g :: gs =>
      match g with
      | [] => [[c]]
      | d :: _ => if isPySpace c = isPySpace d then (c :: g) :: gs else [c] :: g :: gs

/-- Greedy line filling of `textwrap.wrap` at width 70 with
`break_long_words=False`, `break_on_hyphens=False`,
`drop_whitespace=False`, `replace_whitespace=False`: chunks are packed
while they fit; an oversized chunk occupies a line of its own. -/
def wrapGreedy : List (List Char) → List Char → List (List Char)
  | [], cur => if cur = [] then [] else [cur]
  | c :: rest, cur =>
    if cur.length + c.length ≤ 70 then wrapGreedy rest (cur ++ c)
    else if cur = [] then c :: wrapGreedy rest []
    else cur :: (if c.length ≤ 70 then wrapGreedy rest c else c :: wrapGreedy rest [])

/-- Python `textwrap.wrap(s, width=70, ...)` as configured by
`XMLWriter.text`. -/
def textWrap (l : List Char) : List (List Char) :=
  wrapGreedy (wrapChunks l) []

/-- Source `XMLWriter.text`: strip, escape, split into lines, keep empty
lines, wrap the right-stripped non-empty lines. -/
def writerTextLines (t : String) : List (List Char) :=
  (pySplitlines (xmlEscapeTextL (pyStrip t.data))).flatMap
    (fun p => if p = [] then [[]] else textWrap (pyRstrip p))

/-- Source `_normalizeGlifNote` together with the writer calls it makes:
the exact lines appended to the output file (each `raw` line carries the
current one-tab indent), or `none` when the note is suppressed. -/
def _normalizeGlifNote (t : String) : Option (List String) :=
  if t = "" then none
  else if (⟨pyStrip t.data⟩ : String) = "" then none
  else some ((("<note>") : String) ::
    (writerTextLines t).map (fun l => (⟨'\t' :: l⟩ : String)) ++ [(("</note>") : String)])

/-- The `element.text` an XML parse of the written glyph hands back for a
note written as `lines`: everything between `<note>` and `</note>`,
namely a newline, the indented body lines separated by newlines, and the
final newline before the closing tag. -/
def noteElementText (bodyLines : List String) : String :=
  ⟨'\n' :: joinSep '\n' (bodyLines.map (fun s => s.data)) ++ ['\n']⟩

/-- One normalization of a note followed by re-parsing the written file:
the note text the second normalization run receives. -/
def noteAfterOneRun (t : String) : Option String :=
  (_normalizeGlifNote t).map (fun lines => noteElementText (lines.drop 1).dropLast)

/-! ## Specification-side definitions

Each definition below follows the words of a claim (or of its amended
form) and is compared with the corresponding source-side definition by a
refinement theorem. -/

/-- Claim C3, stated from the specification text: render with exactly ten
fraction digits, strip trailing zeros, and if nothing remains after the
decimal point render the (rounded) value as a plain signed integer. -/
def xmlConvertFloatSpec (q : ℚ) : String :=
  let n := scaledMag 10 q
  let v := pyRstripZeros (formatFixed 10 q)
  if v.getLast? = some '.' then
    xmlConvertInt (if q < 0 then -((n / 10 ^ 10 : Nat) : ℤ) else ((n / 10 ^ 10 : Nat) : ℤ))
  else ⟨v⟩

/-- Claim C8 in its amended form, stated from that text: parse `width`
and `height` as reals, each defaulting to 0; drop the whole element if
either fails to parse; otherwise emit only the non-zero of the two, and
drop the element when both are zero. -/
def _normalizeGlifAdvanceSpec (e : RawElem) : Option AdvanceAttrs :=
  match pyFloat ((e.attrGet ("width")).getD ("0")),
      pyFloat ((e.attrGet ("height")).getD ("0")) with
  | some wv, some hv =>
    if wv = 0 ∧ hv = 0 then none
    else some ⟨if wv = 0 then none else some wv, if hv = 0 then none else some hv⟩
  | _, _ => none

/-- Association-list lookup used to compare mod-time mappings as maps. -/
def alookup {β : Type} (k : String) : List (String × β) → Option β
  | [] => none
  | p :: rest => if p.1 = k then some p.2 else alookup k rest

/-- The transliterated and clipped name `userNameToFileName` computes for
an empty prefix and suffix, before the reserved-stem pass. -/
def clippedFilteredName (u : List Char) : List Char :=
  pySliceTo (maxFileNameLength : Int)
    (filterUserName (if u.head? = some '.' then '_' :: u.tail else u))

/-- Number of dot-separated stems of the clipped name that are reserved
(each receives one inserted underscore). -/
def reservedStemCount (u : List Char) : Nat :=
  ((splitChar '.' (clippedFilteredName u)).filter
    (fun p => decide ((⟨pyLower p⟩ : String) ∈ reservedFileNames))).length

/-- The name `userNameToFileName` computes for an empty prefix and suffix
before any clash handling. -/
def mappedNameNoAffix (u : List Char) : List Char :=
  fixReservedParts (clippedFilteredName u)

/-! ## Supporting lemmas: decimal digits -/

theorem charDigitVal_digitChar (m : Nat) : charDigitVal (digitChar m) = m % 10 := by
  have h : m % 10 < 10 := Nat.mod_lt _ (by norm_num)
  unfold digitChar
  set k := m % 10 with hk
  interval_cases k <;> rfl

theorem isDigit_digitChar (m : Nat) : (digitChar m).isDigit = true := by
  have h : m % 10 < 10 := Nat.mod_lt _ (by norm_num)
  unfold digitChar
  set k := m % 10 with hk
  interval_cases k <;> rfl

theorem natDigitsAux_all_digits :
    ∀ fuel n : Nat, ∀ c ∈ natDigitsAux fuel n, c.isDigit = true := by
  intro fuel
  induction fuel with
  | zero => intro n c hc; simp [natDigitsAux] at hc
  | succ f ih =>
    intro n c hc
    rw [natDigitsAux] at hc
    split at hc
    · simp at hc
    · rcases List.mem_append.mp hc with h | h
      · exact ih _ _ h
      · simp at h
        rw [h]
        exact isDigit_digitChar _

theorem natDigits_all_digits (n : Nat) : ∀ c ∈ natDigits n, c.isDigit = true := by
  intro c hc
  rw [natDigits] at hc
  split at hc
  · simp at hc; rw [hc]; rfl
  · exact natDigitsAux_all_digits _ _ _ hc

theorem natDigitsAux_ne_nil {fuel n : Nat} (hf : 0 < fuel) (hn : n ≠ 0) :
    natDigitsAux fuel n ≠ [] := by
  cases fuel with
  | zero => omega
  | succ f =>
    rw [natDigitsAux]
    simp [hn]

theorem natDigits_ne_nil (n : Nat) : natDigits n ≠ [] := by
  rw [natDigits]
  split
  · simp
  · exact natDigitsAux_ne_nil (by omega) (by assumption)

theorem foldl_natDigitsAux (step : Nat → Char → Nat)
    (hstep : ∀ a c, step a c = 10 * a + charDigitVal c) :
    ∀ fuel n a : Nat, n < 10 ^ fuel →
      List.foldl step a (natDigitsAux fuel n) = a * 10 ^ (natDigitsAux fuel n).length + n := by
  intro fuel
  induction fuel with
  | zero => intro n a h; interval_cases n; simp [natDigitsAux]
  | succ f ih =>
    intro n a h
    rw [natDigitsAux]
    split
    · simp; omega
    · have hdiv : n / 10 < 10 ^ f := by
        rw [Nat.div_lt_iff_lt_mul (by norm_num)]
        calc n < 10 ^ (f + 1) := h
        _ = 10 ^ f * 10 := by ring
      rw [List.foldl_append, ih _ _ hdiv]
      simp only [List.foldl_cons, List.foldl_nil, List.length_append, List.length_cons,
        List.length_nil]
      rw [hstep, charDigitVal_digitChar]
      have := Nat.div_add_mod n 10
      ring_nf
      omega

theorem digitsVal_natDigits (n : Nat) : digitsVal (natDigits n) = n := by
  rw [natDigits]
  split
  · subst n; rfl
  · have hlt : n < 10 ^ (n + 1) := by
      calc n < 10 ^ n := Nat.lt_pow_self (by norm_num) n
      _ ≤ 10 ^ (n + 1) := Nat.pow_le_pow_right (by norm_num) (by omega)
    unfold digitsVal
    rw [foldl_natDigitsAux _ (fun _ _ => rfl) _ _ _ hlt]
    simp

theorem natDigitsAux_length_le :
    ∀ fuel n k : Nat, n < 10 ^ k → (natDigitsAux fuel n).length ≤ k := by
  intro fuel
  induction fuel with
  | zero => intro n k _; simp [natDigitsAux]
  | succ f ih =>
    intro n k h
    rw [natDigitsAux]
    split
    · simp
    · have hk : k ≠ 0 := by
        rintro rfl
        simp at h
        omega
      have hdiv : n / 10 < 10 ^ (k - 1) := by
        rw [Nat.div_lt_iff_lt_mul (by norm_num)]
        calc n < 10 ^ k := h
        _ = 10 ^ (k - 1) * 10 := by
          rw [← pow_succ]
          congr 1
          omega
      have := ih (n / 10) (k - 1) hdiv
      simp only [List.length_append, List.length_cons, List.length_nil]
      omega

theorem natDigits_length_le {n k : Nat} (hk : 0 < k) (h : n < 10 ^ k) :
    (natDigits n).length ≤ k := by
  rw [natDigits]
  split
  · simpa using hk
  · exact natDigitsAux_length_le _ _ _ h

/-! ## Supporting lemmas: strings and stripping -/

theorem dropWhile_all_false {α : Type} {p : α → Bool} :
    ∀ {l : List α}, (∀ c ∈ l, p c = false) → l.dropWhile p = l := by
  intro l h
  induction l with
  | nil => rfl
  | cons c cs ih =>
    rw [List.dropWhile_cons, h c (by simp)]
    simp only [Bool.false_eq_true, if_false]

theorem pyStrip_of_no_space {l : List Char} (h : ∀ c ∈ l, isPySpace c = false) :
    pyStrip l = l := by
  unfold pyStrip
  rw [dropWhile_all_false h, dropWhile_all_false (by simp_all), List.reverse_reverse]

theorem pyRstripZeros_concat_ne {xs : List Char} {c : Char} (h : c ≠ '0') :
    pyRstripZeros (xs ++ [c]) = xs ++ [c] := by
  unfold pyRstripZeros
  rw [List.reverse_append]
  simp only [List.reverse_cons, List.reverse_nil, List.nil_append, List.singleton_append,
    List.dropWhile_cons]
  simp [h]

theorem pyRstripZeros_append (xs ys : List Char) :
    pyRstripZeros (xs ++ ys) =
      if pyRstripZeros ys = [] then pyRstripZeros xs else xs ++ pyRstripZeros ys := by
  unfold pyRstripZeros
  rw [List.reverse_append, List.dropWhile_append]
  by_cases hys : (List.dropWhile (fun c => decide (c = '0')) ys.reverse).isEmpty = true
  · rw [List.isEmpty_iff] at hys
    simp [hys]
  · rw [List.isEmpty_iff] at hys
    simp [hys, List.reverse_append]

theorem pyRstripZeros_eq_nil_iff {l : List Char} :
    pyRstripZeros l = [] ↔ ∀ c ∈ l, c = '0' := by
  unfold pyRstripZeros
  rw [List.reverse_eq_nil_iff, List.dropWhile_eq_nil_iff]
  constructor
  · intro h c hc
    have := h c (by simpa using hc)
    simpa using this
  · intro h c hc
    simp [h c (by simpa using hc)]

theorem digitsVal_all_zero {l : List Char} (h : ∀ c ∈ l, c = '0') : digitsVal l = 0 := by
  unfold digitsVal
  induction l with
  | nil => rfl
  | cons c cs ih =>
    rw [List.foldl_cons, h c (by simp)]
    have h0 : 10 * 0 + charDigitVal '0' = 0 := rfl
    rw [h0]
    exact ih (fun c hc => h c (by simp [hc]))

theorem digitsVal_replicate_zero_append (j : Nat) (l : List Char) :
    digitsVal (List.replicate j '0' ++ l) = digitsVal l := by
  unfold digitsVal
  rw [List.foldl_append]
  congr 1
  induction j with
  | zero => rfl
  | succ k ih => rw [List.replicate_succ, List.foldl_cons]; exact ih

theorem digitsVal_zfill (k : Nat) (l : List Char) : digitsVal (zfill k l) = digitsVal l :=
  digitsVal_replicate_zero_append _ _

theorem zfill_length_of_le {k : Nat} {l : List Char} (h : l.length ≤ k) :
    (zfill k l).length = k := by
  unfold zfill
  simp only [List.length_append, List.length_replicate]
  omega

theorem zfill_all_digits {k : Nat} {l : List Char} (h : ∀ c ∈ l, c.isDigit = true) :
    ∀ c ∈ zfill k l, c.isDigit = true := by
  intro c hc
  rcases List.mem_append.mp hc with h0 | h0
  · rw [List.eq_of_mem_replicate h0]; rfl
  · exact h c h0

/-! ## Supporting lemmas: digit characters are inert -/

theorem toNat_bounds_of_isDigit {c : Char} (h : c.isDigit = true) :
    48 ≤ c.toNat ∧ c.toNat ≤ 57 := by
  unfold Char.isDigit at h
  simp only [Bool.and_eq_true, decide_eq_true_eq] at h
  exact ⟨h.1, h.2⟩

theorem isPySpace_of_isDigit {c : Char} (h : c.isDigit = true) : isPySpace c = false := by
  unfold isPySpace
  simp only [Bool.or_eq_false_iff, decide_eq_false_iff_not]
  refine ⟨⟨⟨⟨⟨?_, ?_⟩, ?_⟩, ?_⟩, ?_⟩, ?_⟩ <;>
    (rintro rfl; exact absurd h (by decide))

theorem ne_of_isDigit {c : Char} (h : c.isDigit = true) {d : Char}
    (hd : d.toNat < 48 ∨ 57 < d.toNat) : c ≠ d := by
  have hb := toNat_bounds_of_isDigit h
  intro hc
  subst hc
  omega

theorem isLineBreak_of_isDigit {c : Char} (h : c.isDigit = true) :
    isLineBreak c = false := by
  unfold isLineBreak
  simp only [Bool.or_eq_false_iff, decide_eq_false_iff_not]
  refine ⟨⟨⟨⟨⟨⟨⟨⟨⟨?_, ?_⟩, ?_⟩, ?_⟩, ?_⟩, ?_⟩, ?_⟩, ?_⟩, ?_⟩, ?_⟩ <;>
    (rintro rfl; exact absurd h (by decide))

/-! ## Supporting lemmas: parsing the fixed-point renderings -/

theorem natDigits_head_digit (a : Nat) :
    ∃ c cs, natDigits a = c :: cs ∧ c.isDigit = true := by
  rcases h : natDigits a with _ | ⟨c, cs⟩
  · exact absurd h (natDigits_ne_nil a)
  · exact ⟨c, cs, rfl, natDigits_all_digits a c (by rw [h]; simp)⟩

theorem decLitVal_zero_exp (a b L : Nat) :
    decLitVal a b L 0 = mkRat ((a * 10 ^ L + b : Nat) : ℤ) (10 ^ L) := by
  simp [decLitVal]

theorem pyFloatMag_digits_dot (a : Nat) (F : List Char)
    (hF : ∀ c ∈ F, c.isDigit = true) :
    pyFloatMag (natDigits a ++ '.' :: F) =
      some (decLitVal a (digitsVal F) F.length 0) := by
  have hip := natDigits_all_digits a
  have htake : (natDigits a ++ '.' :: F).takeWhile Char.isDigit =
      natDigits a ++ ('.' :: F).takeWhile Char.isDigit :=
    List.takeWhile_append_of_pos (by simpa using hip)
  have hdot : ('.' :: F).takeWhile Char.isDigit = [] := by
    rw [List.takeWhile_cons]
    simp [show ('.').isDigit = false from rfl]
  have hdrop : (natDigits a ++ '.' :: F).dropWhile Char.isDigit = '.' :: F := by
    rw [List.dropWhile_append_of_pos (by simpa using hip), List.dropWhile_cons]
    simp [show ('.').isDigit = false from rfl]
  simp only [pyFloatMag, htake, hdot, hdrop, List.append_nil]
  rw [List.takeWhile_eq_self_iff.mpr (by simpa using hF),
    List.dropWhile_eq_nil_iff.mpr (by simpa using hF)]
  rw [if_neg (by simp [natDigits_ne_nil a])]
  simp [pyFloatExp, digitsVal_natDigits]

theorem no_space_in_formatFixed (prec : Nat) (q : ℚ) :
    ∀ c ∈ formatFixed prec q, isPySpace c = false := by
  intro c hc
  simp only [formatFixed, List.mem_append, List.mem_cons] at hc
  rcases hc with (h | h) | h | h
  · split at h
    · simp at h
      subst h
      rfl
    · simp at h
  · exact isPySpace_of_isDigit (natDigits_all_digits _ _ h)
  · subst h; rfl
  · exact isPySpace_of_isDigit (zfill_all_digits (natDigits_all_digits _) _ h)

theorem pyFloatL_digit_head (body : List Char) (c : Char) (cs : List Char)
    (hbody : body = c :: cs) (hc : c.isDigit = true)
    (hns : ∀ d ∈ body, isPySpace d = false) :
    pyFloatL body = pyFloatMag body := by
  unfold pyFloatL
  rw [pyStrip_of_no_space hns, hbody]
  show (if c = '-' then (pyFloatMag cs).map Neg.neg
    else if c = '+' then pyFloatMag cs else pyFloatMag (c :: cs)) = pyFloatMag (c :: cs)
  rw [if_neg (ne_of_isDigit hc (by left; decide)), if_neg (ne_of_isDigit hc (by left; decide))]

theorem pyFloatL_neg_digits (body : List Char)
    (hns : ∀ d ∈ ('-' :: body), isPySpace d = false) :
    pyFloatL ('-' :: body) = (pyFloatMag body).map Neg.neg := by
  unfold pyFloatL
  rw [pyStrip_of_no_space hns]
  simp

theorem parse_formatFixed {prec : Nat} (hprec : 0 < prec) (q : ℚ) :
    pyFloatL (formatFixed prec q) = some (roundTo prec q) := by
  have hmd : scaledMag prec q % 10 ^ prec < 10 ^ prec :=
    Nat.mod_lt _ (Nat.pos_pow_of_pos _ (by norm_num))
  have hFdig : ∀ c ∈ zfill prec (natDigits (scaledMag prec q % 10 ^ prec)),
      c.isDigit = true := zfill_all_digits (natDigits_all_digits _)
  have hmag : pyFloatMag (natDigits (scaledMag prec q / 10 ^ prec) ++
      '.' :: zfill prec (natDigits (scaledMag prec q % 10 ^ prec))) =
      some (mkRat (scaledMag prec q) (10 ^ prec)) := by
    rw [pyFloatMag_digits_dot _ _ hFdig, digitsVal_zfill, digitsVal_natDigits,
      zfill_length_of_le (natDigits_length_le hprec hmd), decLitVal_zero_exp]
    congr 2
    norm_cast
    rw [Nat.mul_comm]
    exact Nat.div_add_mod _ _
  by_cases hq : q < 0
  · have hform : formatFixed prec q = '-' :: (natDigits (scaledMag prec q / 10 ^ prec) ++
        '.' :: zfill prec (natDigits (scaledMag prec q % 10 ^ prec))) := by
      simp [formatFixed, hq]
    rw [hform, pyFloatL_neg_digits _ (by rw [← hform]; exact no_space_in_formatFixed prec q),
      hmag]
    simp [roundTo, hq]
  · have hform : formatFixed prec q = natDigits (scaledMag prec q / 10 ^ prec) ++
        '.' :: zfill prec (natDigits (scaledMag prec q % 10 ^ prec)) := by
      simp [formatFixed, hq]
    obtain ⟨c, cs, hcc, hcd⟩ := natDigits_head_digit (scaledMag prec q / 10 ^ prec)
    have hbody : (natDigits (scaledMag prec q / 10 ^ prec) ++
        '.' :: zfill prec (natDigits (scaledMag prec q % 10 ^ prec))) =
        c :: (cs ++ '.' :: zfill prec (natDigits (scaledMag prec q % 10 ^ prec))) := by
      rw [hcc]
      simp
    rw [hform, pyFloatL_digit_head _ c _ hbody hcd
      (by rw [← hform]; exact no_space_in_formatFixed prec q), hmag]
    simp [roundTo, hq]

/-! ## Supporting lemmas: claim C3 (numeric formatting) -/

theorem rstripZeros_zfill_eq_nil_iff (prec m : Nat) :
    pyRstripZeros (zfill prec (natDigits m)) = [] ↔ m = 0 := by
  rw [pyRstripZeros_eq_nil_iff]
  constructor
  · intro h
    have := digitsVal_all_zero h
    rwa [digitsVal_zfill, digitsVal_natDigits] at this
  · rintro rfl
    intro c hc
    rcases List.mem_append.mp hc with h | h
    · exact List.eq_of_mem_replicate h
    · rw [natDigits] at h
      simpa using h

theorem rstrip_formatFixed (prec : Nat) (q : ℚ) :
    pyRstripZeros (formatFixed prec q) =
      if scaledMag prec q % 10 ^ prec = 0 then
        ((if q < 0 then ['-'] else []) ++ natDigits (scaledMag prec q / 10 ^ prec)) ++ ['.']
      else (((if q < 0 then ['-'] else []) ++ natDigits (scaledMag prec q / 10 ^ prec)) ++ ['.'])
        ++ pyRstripZeros (zfill prec (natDigits (scaledMag prec q % 10 ^ prec))) := by
  have hform : formatFixed prec q =
      ((((if q < 0 then ['-'] else []) ++ natDigits (scaledMag prec q / 10 ^ prec)) ++ ['.']) ++
        zfill prec (natDigits (scaledMag prec q % 10 ^ prec))) := by
    simp [formatFixed]
  rw [hform, pyRstripZeros_append]
  have hdotend : pyRstripZeros
      (((if q < 0 then ['-'] else []) ++ natDigits (scaledMag prec q / 10 ^ prec)) ++ ['.']) =
      ((if q < 0 then ['-'] else []) ++ natDigits (scaledMag prec q / 10 ^ prec)) ++ ['.'] :=
    pyRstripZeros_concat_ne (by decide)
  by_cases hmd : scaledMag prec q % 10 ^ prec = 0
  · rw [if_pos ((rstripZeros_zfill_eq_nil_iff _ _).mpr hmd), if_pos hmd, hdotend]
  · rw [if_neg (fun h => hmd ((rstripZeros_zfill_eq_nil_iff _ _).mp h)), if_neg hmd]

theorem pyRstripZeros_last_props {l : List Char} (h : pyRstripZeros l ≠ []) :
    ∃ c, (pyRstripZeros l).getLast? = some c ∧ c ≠ '0' ∧ c ∈ l := by
  unfold pyRstripZeros at *
  rcases hh : (l.reverse.dropWhile (fun c => decide (c = '0'))).head? with _ | c
  · rw [List.head?_eq_none_iff] at hh
    rw [hh] at h
    simp at h
  · refine ⟨c, ?_, ?_, ?_⟩
    · rw [List.getLast?_reverse, hh]
    · have := List.head?_dropWhile_not (fun c => decide (c = '0')) l.reverse
      rw [hh] at this
      simpa using this
    · have hmem : c ∈ l.reverse.dropWhile (fun c => decide (c = '0')) :=
        List.mem_of_mem_head? (by rw [hh]; simp)
      have := (List.dropWhile_sublist (l := l.reverse) (fun c => decide (c = '0'))).mem hmem
      simpa using this

theorem ratFloor_natCast (a : ℕ) : ratFloor ((a : ℕ) : ℚ) = a := by
  unfold ratFloor
  rw [Rat.num_natCast, Rat.den_natCast]
  exact Int.fdiv_one _

theorem pyTrunc_natCast (a : ℕ) : pyTrunc ((a : ℕ) : ℚ) = a := by
  unfold pyTrunc
  rw [if_neg (not_lt.mpr (by positivity))]
  exact ratFloor_natCast a

theorem pyTrunc_neg_natCast (a : ℕ) : pyTrunc (-((a : ℕ) : ℚ)) = -(a : ℤ) := by
  rcases Nat.eq_zero_or_pos a with rfl | ha
  · norm_num
    unfold pyTrunc
    rw [if_neg (by norm_num)]
    unfold ratFloor
    norm_num
  · unfold pyTrunc
    rw [if_pos (neg_neg_of_pos (by exact_mod_cast ha)), neg_neg, ratFloor_natCast]

theorem decLitVal_int (a : Nat) : decLitVal a 0 0 0 = ((a : ℕ) : ℚ) := by
  rw [decLitVal_zero_exp]
  norm_num

theorem intDigits_chars (z : ℤ) : ∀ c ∈ intDigits z, c = '-' ∨ c.isDigit = true := by
  intro c hc
  unfold intDigits at hc
  split at hc
  · rcases List.mem_cons.mp hc with h | h
    · exact Or.inl h
    · exact Or.inr (natDigits_all_digits _ _ h)
  · exact Or.inr (natDigits_all_digits _ _ hc)

theorem dot_not_mem_intDigits (z : ℤ) : '.' ∉ intDigits z := by
  intro h
  rcases intDigits_chars z _ h with h1 | h1
  · exact absurd h1 (by decide)
  · exact absurd h1 (by decide)

theorem xmlConvertFloat_eq_spec (q : ℚ) : xmlConvertFloat q = xmlConvertFloatSpec q := by
  simp only [xmlConvertFloat, xmlConvertFloatSpec]
  by_cases hmd : scaledMag 10 q % 10 ^ 10 = 0
  · have hv : pyRstripZeros (formatFixed 10 q) =
        ((if q < 0 then ['-'] else []) ++ natDigits (scaledMag 10 q / 10 ^ 10)) ++ ['.'] := by
      rw [rstrip_formatFixed, if_pos hmd]
    rw [hv, if_pos (List.getLast?_concat _), if_pos (List.getLast?_concat _)]
    by_cases hq : q < 0
    · have hshape : ((if q < 0 then ['-'] else []) ++ natDigits (scaledMag 10 q / 10 ^ 10)) ++
          ['.'] = '-' :: (natDigits (scaledMag 10 q / 10 ^ 10) ++ '.' :: []) := by
        simp [hq]
      have hns : ∀ d ∈ ('-' :: (natDigits (scaledMag 10 q / 10 ^ 10) ++ '.' :: [])),
          isPySpace d = false := by
        intro d hd
        rcases List.mem_cons.mp hd with rfl | hd
        · rfl
        · rcases List.mem_append.mp hd with hd | hd
          · exact isPySpace_of_isDigit (natDigits_all_digits _ _ hd)
          · simp at hd
            subst hd
            rfl
      rw [hshape, pyFloatL_neg_digits _ hns,
        pyFloatMag_digits_dot _ [] (by intro c hc; simp at hc)]
      show xmlConvertInt (pyTrunc (-(decLitVal (scaledMag 10 q / 10 ^ 10) 0 0 0))) = _
      rw [decLitVal_int, pyTrunc_neg_natCast, if_pos hq]
    · have hshape : ((if q < 0 then ['-'] else []) ++ natDigits (scaledMag 10 q / 10 ^ 10)) ++
          ['.'] = natDigits (scaledMag 10 q / 10 ^ 10) ++ '.' :: [] := by
        simp [hq]
      have hns : ∀ d ∈ (natDigits (scaledMag 10 q / 10 ^ 10) ++ '.' :: []),
          isPySpace d = false := by
        intro d hd
        rcases List.mem_append.mp hd with hd | hd
        · exact isPySpace_of_isDigit (natDigits_all_digits _ _ hd)
        · simp at hd
          subst hd
          rfl
      obtain ⟨c, cs, hcc, hcd⟩ := natDigits_head_digit (scaledMag 10 q / 10 ^ 10)
      rw [hshape, pyFloatL_digit_head _ c (cs ++ '.' :: []) (by rw [hcc]; simp) hcd hns,
        pyFloatMag_digits_dot _ [] (by intro d hd; simp at hd)]
      show xmlConvertInt (pyTrunc (decLitVal (scaledMag 10 q / 10 ^ 10) 0 0 0)) = _
      rw [decLitVal_int, pyTrunc_natCast, if_neg hq]
  · have hv : pyRstripZeros (formatFixed 10 q) =
        (((if q < 0 then ['-'] else []) ++ natDigits (scaledMag 10 q / 10 ^ 10)) ++ ['.']) ++
          pyRstripZeros (zfill 10 (natDigits (scaledMag 10 q % 10 ^ 10))) := by
      rw [rstrip_formatFixed, if_neg hmd]
    have hW : pyRstripZeros (zfill 10 (natDigits (scaledMag 10 q % 10 ^ 10))) ≠ [] :=
      fun h => hmd ((rstripZeros_zfill_eq_nil_iff _ _).mp h)
    obtain ⟨c, hlast, hc0, hcmem⟩ := pyRstripZeros_last_props hW
    have hcd : c.isDigit = true :=
      zfill_all_digits (natDigits_all_digits _) _ hcmem
    have hlastv : (pyRstripZeros (formatFixed 10 q)).getLast? = some c := by
      rw [hv, List.getLast?_append, hlast]
      rfl
    have hne : ¬ (pyRstripZeros (formatFixed 10 q)).getLast? = some '.' := by
      rw [hlastv]
      intro h
      exact absurd hcd (by simp at h; rw [h]; decide)
    rw [if_neg hne, if_neg hne]

/-! ## Claim theorems -/

/-- C3: the writer's single numeric-formatting routine renders every real
with exactly ten fractional digits, strips the trailing zeros, and when
nothing remains after the decimal point renders the value as a plain
signed integer (`xmlConvertFloat` agrees with the claim-side
`xmlConvertFloatSpec` everywhere, a kept fraction never ends in a zero
digit, and the claim's four examples hold). -/
theorem C3_xmlConvertFloat_formatting :
    (∀ q : ℚ, xmlConvertFloat q = xmlConvertFloatSpec q) ∧
    (∀ q : ℚ, '.' ∈ (xmlConvertFloat q).data →
      (xmlConvertFloat q).data.getLast? ≠ some '0') ∧
    xmlConvertFloat (mkRat 100000000001 100000000000) = "1" ∧
    xmlConvertFloat (mkRat 10000000001 10000000000) = "1.0000000001" ∧
    xmlConvertFloat (-2) = "-2" ∧
    xmlConvertFloat 0 = "0" := by
  refine ⟨xmlConvertFloat_eq_spec, ?_, by decide, by decide, by decide, by decide⟩
  intro q
  simp only [xmlConvertFloat]
  by_cases hmd : scaledMag 10 q % 10 ^ 10 = 0
  · have hv : pyRstripZeros (formatFixed 10 q) =
        ((if q < 0 then ['-'] else []) ++ natDigits (scaledMag 10 q / 10 ^ 10)) ++ ['.'] := by
      rw [rstrip_formatFixed, if_pos hmd]
    rw [hv, if_pos (List.getLast?_concat _)]
    rcases pyFloatL (((if q < 0 then ['-'] else []) ++
        natDigits (scaledMag 10 q / 10 ^ 10)) ++ ['.']) with _ | r
    · intro _
      show (((if q < 0 then ['-'] else []) ++ natDigits (scaledMag 10 q / 10 ^ 10)) ++
        ['.']).getLast? ≠ some '0'
      rw [List.getLast?_concat]
      simp
    · intro hdot
      exact absurd hdot (by simpa [xmlConvertInt] using dot_not_mem_intDigits (pyTrunc r))
  · have hv : pyRstripZeros (formatFixed 10 q) =
        (((if q < 0 then ['-'] else []) ++ natDigits (scaledMag 10 q / 10 ^ 10)) ++ ['.']) ++
          pyRstripZeros (zfill 10 (natDigits (scaledMag 10 q % 10 ^ 10))) := by
      rw [rstrip_formatFixed, if_neg hmd]
    have hW : pyRstripZeros (zfill 10 (natDigits (scaledMag 10 q % 10 ^ 10))) ≠ [] :=
      fun h => hmd ((rstripZeros_zfill_eq_nil_iff _ _).mp h)
    obtain ⟨c, hlast, hc0, hcmem⟩ := pyRstripZeros_last_props hW
    have hlastv : (pyRstripZeros (formatFixed 10 q)).getLast? = some c := by
      rw [hv, List.getLast?_append, hlast]
      rfl
    have hne : ¬ (pyRstripZeros (formatFixed 10 q)).getLast? = some '.' := by
      rw [hlastv]
      intro h
      simp at h
      subst h
      exact absurd (zfill_all_digits (natDigits_all_digits _) _ hcmem) (by decide)
    rw [if_neg hne]
    intro _
    rw [hlastv]
    intro h
    exact hc0 (by simpa using h)

/-- Witness for C3: a value with a kept fraction satisfies the
trailing-zero clause at a concrete input. -/
theorem C3_xmlConvertFloat_formatting_witness :
    '.' ∈ (xmlConvertFloat (mkRat 1 2)).data ∧
    (xmlConvertFloat (mkRat 1 2)).data.getLast? ≠ some '0' :=
  ⟨by decide, C3_xmlConvertFloat_formatting.2.1 (mkRat 1 2) (by decide)⟩

/-- C1 (code bug): whole-package normalization is not idempotent.  A glyph
note of two lines, `"A"` over `"B"`, is written as the body lines
`\tA`, `\tB`; re-parsing the written file hands the second run the text
`\n\tA\n\tB\n`, and that run emits `\tA`, `\t\tB` — the continuation line
gains one tab on every run, so the second run's bytes differ from the
first run's. -/
theorem C1_note_rewrap_not_idempotent :
    _normalizeGlifNote ("A\nB") = some ["<note>", "\tA", "\tB", "</note>"] ∧
    noteAfterOneRun ("A\nB") = some ("\n\tA\n\tB\n") ∧
    (noteAfterOneRun ("A\nB")).bind _normalizeGlifNote =
      some ["<note>", "\tA", "\t\tB", "</note>"] ∧
    (noteAfterOneRun ("A\nB")).bind _normalizeGlifNote ≠ _normalizeGlifNote ("A\nB") := by
  exact ⟨by decide, by decide, by decide, by decide⟩

/-- C2 (code bug): `_normalizeColorString` rejects an invalid color, and
the guideline caller then drops the attribute as the claim says — but the
anchor and image callers store the unguarded `None` result, so
serializing the element raises `AttributeError` instead of dropping the
color. -/
theorem C2_invalid_color_anchor_image_raise :
    _normalizeColorString ("invalid") = none ∧
    _normalizeGlifAnchor (RawElem.mk ("anchor") [("x", "1"), ("y", "2"), ("color", "invalid")] [])
      = some [("x", PyVal.real 1), ("y", PyVal.real 2), ("color", PyVal.none)] ∧
    writeGlifAnchor (RawElem.mk ("anchor") [("x", "1"), ("y", "2"), ("color", "invalid")] []) =
      WriteResult.error ∧
    writeGlifImage (RawElem.mk ("image") [("fileName", "a.png"), ("color", "invalid")] []) =
      WriteResult.error ∧
    _normalizeDictGuideline [("x", GVal.num 1), ("y", GVal.num 2), ("angle", GVal.num 3),
      ("color", GVal.str "invalid")] =
      some [("x", GVal.num 1), ("y", GVal.num 2), ("angle", GVal.num 3)] := by
  exact ⟨by decide, by decide, by decide, by decide, by decide⟩

/-- C5 (code bug): the writer escapes `&`, `<`, `>` in element text, and
`xmlEscapeAttribute` would escape the double quote — but
`attributesToString` applies it to the attribute name and sends the value
through `xmlConvertValue`, which only escapes `&`, `<`, `>`; a quote in an
attribute value is written verbatim inside the quoted value. -/
theorem C5_attribute_value_quote_unescaped :
    xmlEscapeAttribute ("a\"b") = "a&quot;b" ∧
    attributesToString [(("name" : String), PyVal.str ("a\"b"))] = some ("name=\"a\"b\"") ∧
    attributesToString [(("name" : String), PyVal.str ("a\"b"))] ≠ some ("name=\"a&quot;b\"") ∧
    xmlEscapeText ("a&b<c>d\"e") = "a&amp;b&lt;c&gt;d\"e" ∧
    xmlEscapeText ("ä'/\\") = "ä'/\\" := by
  exact ⟨by decide, by decide, by decide, by decide, by decide⟩

/-- C8 (counterexample): an advance whose `width` parses but whose
`height` does not is dropped entirely by the code, while the claim
("dropped only if neither parses") would keep the parsed width. -/
theorem C8_advance_either_invalid_drops :
    pyFloat ("60") = some 60 ∧
    _normalizeGlifAdvance (RawElem.mk ("advance") [("width", "60"), ("height", "_")] []) =
      none ∧
    _normalizeGlifAdvance (RawElem.mk ("advance") [("width", "60"), ("height", "_")] []) ≠
      some ⟨some 60, none⟩ := by
  exact ⟨by decide, by decide, by decide⟩

/-- C8 as amended: the advance element is dropped when either attribute
fails to parse (both default to `"0"` when absent); otherwise exactly the
non-zero values are emitted, and an all-zero advance is dropped. -/
theorem C8_advance_amended :
    ∀ e : RawElem, _normalizeGlifAdvance e = _normalizeGlifAdvanceSpec e := by
  intro e
  simp only [_normalizeGlifAdvance, _normalizeGlifAdvanceSpec]
  rcases hw1 : pyFloat ((e.attrGet ("width")).getD ("0")) with _ | wv <;>
    rcases hh1 : pyFloat ((e.attrGet ("height")).getD ("0")) with _ | hv <;>
      simp only [hw1, hh1]
  by_cases hw : wv = 0 <;> by_cases hh : hv = 0 <;> simp [hw, hh]

/-- C9: the dict-based guideline normalization used for fontinfo.plist
treats a numeric 0 as an absent field — a guideline dict with `x = 0` and
non-zero `y` and `angle` is dropped wholesale — while the same guideline
given as glyph-level attribute strings (`x="0"`) passes the truthiness
checks and is kept, so the two contexts disagree on zero-valued
coordinates. -/
theorem C9_zero_coordinate_disagreement :
    (∀ qy qa : ℚ, qy ≠ 0 → qa ≠ 0 →
      _normalizeDictGuideline
        [("x", GVal.num 0), ("y", GVal.num qy), ("angle", GVal.num qa)] = none) ∧
    (∀ (sy sa : String) (qy qa : ℚ), sy ≠ "" → sa ≠ "" →
      pyFloat sy = some qy → pyFloat sa = some qa →
      _normalizeGlifGuideline
          (RawElem.mk ("guideline") [("x", "0"), ("y", sy), ("angle", sa)] []) =
        some [("x", GVal.num 0), ("y", GVal.num qy), ("angle", GVal.num qa)]) := by
  constructor
  · intro qy qa hy ha
    simp [_normalizeDictGuideline, dictGet, gvalTruthy, hy, ha]
  · intro sy sa qy qa hsy hsa hqy hqa
    have h0 : pyFloat ("0") = some 0 := by decide
    simp [_normalizeGlifGuideline, RawElem.attrGet, RawElem.attrs, attribGet,
      _normalizeDictGuideline, dictGet, gvalTruthy, hsy, hsa,
      convGuidelineField, gvalToFloat, h0, hqy, hqa, guidelineColorEntry, guidelineEntry]

/-- Witness for C9 at concrete inputs: the fontinfo form is dropped, the
glyph form is kept. -/
theorem C9_zero_coordinate_disagreement_witness :
    _normalizeDictGuideline
      [("x", GVal.num 0), ("y", GVal.num 5), ("angle", GVal.num 90)] = none ∧
    _normalizeGlifGuideline
        (RawElem.mk ("guideline") [("x", "0"), ("y", "5"), ("angle", "90")] []) =
      some [("x", GVal.num 0), ("y", GVal.num 5), ("angle", GVal.num 90)] :=
  ⟨C9_zero_coordinate_disagreement.1 5 90 (by decide) (by decide),
   C9_zero_coordinate_disagreement.2 ("5") ("90") 5 90 (by decide) (by decide)
     (by decide) (by decide)⟩

/-! ## Supporting lemmas: splitting and joining on a separator -/

theorem splitChar_ne_nil (sep : Char) (l : List Char) : splitChar sep l ≠ [] := by
  induction l with
  | nil => simp [splitChar]
  | cons c rest ih =>
    rcases h : splitChar sep rest with _ | ⟨g, gs⟩
    · exact absurd h ih
    · simp only [splitChar, h]
      split <;> simp

theorem splitChar_parts_sep_free (sep : Char) :
    ∀ l : List Char, ∀ p ∈ splitChar sep l, sep ∉ p := by
  intro l
  induction l with
  | nil =>
    intro p hp
    simp [splitChar] at hp
    simp [hp]
  | cons c rest ih =>
    intro p hp
    rcases h : splitChar sep rest with _ | ⟨g, gs⟩
    · exact absurd h (splitChar_ne_nil sep rest)
    · simp only [splitChar, h] at hp
      split at hp
      · rcases List.mem_cons.mp hp with rfl | hp
        · simp
        · exact ih p (by rw [h]; exact hp)
      · next hc =>
        rcases List.mem_cons.mp hp with rfl | hp
        · intro hm
          rcases List.mem_cons.mp hm with rfl | hm
          · exact hc rfl
          · exact ih g (by rw [h]; simp) hm
        · exact ih p (by rw [h]; simp [hp])

theorem joinSep_splitChar (sep : Char) (l : List Char) :
    joinSep sep (splitChar sep l) = l := by
  induction l with
  | nil => rfl
  | cons c rest ih =>
    rcases h : splitChar sep rest with _ | ⟨g, gs⟩
    · exact absurd h (splitChar_ne_nil sep rest)
    · rw [h] at ih
      simp only [splitChar, h]
      by_cases hc : c = sep
      · subst hc
        rw [if_pos rfl]
        show joinSep _ ([] :: g :: gs) = _
        rw [joinSep]
        simpa using ih
      · rw [if_neg hc]
        rcases gs with _ | ⟨g2, gs2⟩
        · show joinSep _ [c :: g] = _
          rw [joinSep]
          rw [show joinSep sep [g] = g from rfl] at ih
          rw [ih]
        · show joinSep _ ((c :: g) :: g2 :: gs2) = _
          rw [joinSep]
          rw [show joinSep sep (g :: g2 :: gs2) = g ++ sep :: joinSep sep (g2 :: gs2)
            from rfl] at ih
          simpa using ih

theorem splitChar_sep_free {sep : Char} {p : List Char} (h : sep ∉ p) :
    splitChar sep p = [p] := by
  induction p with
  | nil => rfl
  | cons c rest ih =>
    have hc : c ≠ sep := fun hcc => h (by simp [hcc])
    have hrest : splitChar sep rest = [rest] := ih (fun hm => h (by simp [hm]))
    simp only [splitChar, hrest]
    rw [if_neg (fun hcc => hc hcc)]

theorem splitChar_append_sep {sep : Char} {p t : List Char} (h : sep ∉ p) :
    splitChar sep (p ++ sep :: t) = p :: splitChar sep t := by
  induction p with
  | nil =>
    rcases ht : splitChar sep t with _ | ⟨g, gs⟩
    · exact absurd ht (splitChar_ne_nil sep t)
    · simp only [List.nil_append, splitChar, ht, if_pos rfl]
      simp
  | cons c rest ih =>
    have hc : c ≠ sep := fun hcc => h (by simp [hcc])
    have hrest := ih (fun hm => h (by simp [hm]))
    simp only [List.cons_append, splitChar, List.append_eq, hrest]
    rw [if_neg (fun hcc => hc hcc)]

theorem splitChar_joinSep (sep : Char) :
    ∀ ps : List (List Char), ps ≠ [] → (∀ p ∈ ps, sep ∉ p) →
      splitChar sep (joinSep sep ps) = ps := by
  intro ps
  induction ps with
  | nil => intro h; exact absurd rfl h
  | cons p rest ih =>
    intro _ hfree
    rcases rest with _ | ⟨q, qs⟩
    · exact splitChar_sep_free (hfree p (by simp))
    · rw [show joinSep sep (p :: q :: qs) = p ++ sep :: joinSep sep (q :: qs) from rfl,
        splitChar_append_sep (hfree p (by simp)),
        ih (by simp) (fun r hr => hfree r (by simp [hr]))]

theorem mem_joinSep_of_mem {sep : Char} {c : Char} {p : List Char} {ps : List (List Char)}
    (hc : c ∈ p) (hp : p ∈ ps) : c ∈ joinSep sep ps := by
  induction ps with
  | nil => simp at hp
  | cons r rest ih =>
    rcases rest with _ | ⟨q, qs⟩
    · simp at hp
      subst hp
      exact hc
    · rw [show joinSep sep (r :: q :: qs) = r ++ sep :: joinSep sep (q :: qs) from rfl]
      rcases List.mem_cons.mp hp with rfl | hp
      · simp [hc]
      · simp [ih hp]

theorem mem_of_mem_joinSep {sep : Char} {c : Char} {ps : List (List Char)}
    (h : c ∈ joinSep sep ps) : c = sep ∨ ∃ p ∈ ps, c ∈ p := by
  induction ps with
  | nil => simp [joinSep] at h
  | cons r rest ih =>
    rcases rest with _ | ⟨q, qs⟩
    · exact Or.inr ⟨r, by simp, h⟩
    · rw [show joinSep sep (r :: q :: qs) = r ++ sep :: joinSep sep (q :: qs) from rfl] at h
      rcases List.mem_append.mp h with h1 | h1
      · exact Or.inr ⟨r, by simp, h1⟩
      · rcases List.mem_cons.mp h1 with rfl | h1
        · exact Or.inl rfl
        · rcases ih h1 with h2 | ⟨p, hp, hcp⟩
          · exact Or.inl h2
          · exact Or.inr ⟨p, by simp [hp], hcp⟩

theorem mem_of_mem_splitChar {sep c : Char} {p l : List Char}
    (hp : p ∈ splitChar sep l) (hc : c ∈ p) : c ∈ l := by
  rw [← joinSep_splitChar sep l]
  exact mem_joinSep_of_mem hc hp

/-! ## Supporting lemmas: claim C4 (name legality) -/

theorem filterUserName_no_illegal (l : List Char) :
    ∀ c ∈ filterUserName l, c ∉ illegalCharacters := by
  intro c hc
  rcases List.mem_flatMap.mp hc with ⟨a, _, hca⟩
  unfold filterUserChar at hca
  split at hca
  · simp at hca
    subst hca
    decide
  · next hleg =>
    split at hca
    · rcases List.mem_cons.mp hca with rfl | hca
      · exact hleg
      · simp at hca
        subst hca
        decide
    · simp at hca
      subst hca
      exact hleg

theorem mem_clippedFilteredName {u : List Char} {c : Char}
    (hc : c ∈ clippedFilteredName u) : c ∉ illegalCharacters := by
  unfold clippedFilteredName pySliceTo at hc
  split at hc <;> exact filterUserName_no_illegal _ _ (List.mem_of_mem_take hc)

theorem pyLower_underscore_cons (p : List Char) :
    pyLower ('_' :: p) = '_' :: pyLower p := rfl

theorem underscore_not_reserved (p : List Char) :
    (⟨pyLower ('_' :: p)⟩ : String) ∉ reservedFileNames := by
  rw [pyLower_underscore_cons]
  intro h
  have hh : ∀ s ∈ reservedFileNames, s.data.head? ≠ some '_' := by decide
  exact hh _ h rfl

theorem fixedPart_stem_ok (p : List Char) :
    (⟨pyLower (fixedPart p)⟩ : String) ∉ reservedFileNames := by
  unfold fixedPart
  split
  · exact underscore_not_reserved p
  · assumption

theorem fixedPart_sep_free {p : List Char} (h : '.' ∉ p) : '.' ∉ fixedPart p := by
  unfold fixedPart
  split
  · intro hm
    rcases List.mem_cons.mp hm with h1 | h1
    · exact absurd h1 (by decide)
    · exact h h1
  · exact h

theorem fixedPart_length (p : List Char) :
    (fixedPart p).length =
      p.length + (if (⟨pyLower p⟩ : String) ∈ reservedFileNames then 1 else 0) := by
  unfold fixedPart
  split
  · next hres => simp [hres]
  · next hres => simp [hres]

theorem fixedPart_chars {p : List Char} {c : Char} (hc : c ∈ fixedPart p) :
    c = '_' ∨ c ∈ p := by
  unfold fixedPart at hc
  split at hc
  · rcases List.mem_cons.mp hc with rfl | hc
    · exact Or.inl rfl
    · exact Or.inr hc
  · exact Or.inr hc

theorem joinSep_map_fixedPart_length :
    ∀ ps : List (List Char), ps ≠ [] →
      (joinSep '.' (ps.map fixedPart)).length =
        (joinSep '.' ps).length +
          (ps.filter (fun p => decide ((⟨pyLower p⟩ : String) ∈ reservedFileNames))).length := by
  intro ps
  induction ps with
  | nil => intro h; exact absurd rfl h
  | cons p rest ih =>
    intro _
    rcases rest with _ | ⟨q, qs⟩
    · show (joinSep '.' [fixedPart p]).length = _
      rw [show joinSep '.' [fixedPart p] = fixedPart p from rfl,
        show joinSep '.' [p] = p from rfl, fixedPart_length]
      by_cases hres : (⟨pyLower p⟩ : String) ∈ reservedFileNames <;>
        simp [hres, List.filter]
    · rw [show (p :: q :: qs).map fixedPart =
          fixedPart p :: (q :: qs).map fixedPart from rfl]
      rw [show joinSep '.' (fixedPart p :: (q :: qs).map fixedPart) =
          fixedPart p ++ '.' :: joinSep '.' ((q :: qs).map fixedPart) from (by
        rcases qs with _ | _ <;> rfl)]
      rw [show joinSep '.' (p :: q :: qs) = p ++ '.' :: joinSep '.' (q :: qs) from rfl]
      simp only [List.length_append, List.length_cons, fixedPart_length, ih (by simp)]
      by_cases hres : (⟨pyLower p⟩ : String) ∈ reservedFileNames <;>
        simp [hres, List.filter_cons] <;> omega

theorem clippedFilteredName_length_le (u : List Char) :
    (clippedFilteredName u).length ≤ maxFileNameLength := by
  unfold clippedFilteredName pySliceTo
  rw [if_pos (by norm_num)]
  exact List.length_take_le _ _

theorem splitChar_cons_sep (sep : Char) (t : List Char) :
    splitChar sep (sep :: t) = [] :: splitChar sep t := by
  rcases h : splitChar sep t with _ | ⟨g, gs⟩
  · exact absurd h (splitChar_ne_nil sep t)
  · simp [splitChar, h]

theorem splitChar_cons_ne {sep c : Char} (hc : c ≠ sep) (t : List Char) :
    ∃ g gs, splitChar sep t = g :: gs ∧ splitChar sep (c :: t) = (c :: g) :: gs := by
  rcases h : splitChar sep t with _ | ⟨g, gs⟩
  · exact absurd h (splitChar_ne_nil sep t)
  · exact ⟨g, gs, rfl, by simp [splitChar, h, hc]⟩

theorem splitChar_append_free {sep : Char} {B : List Char} (hB : sep ∉ B) :
    ∀ A : List Char, ∃ qs q, splitChar sep A = qs ++ [q] ∧
      splitChar sep (A ++ B) = qs ++ [q ++ B] := by
  intro A
  induction A with
  | nil =>
    refine ⟨[], [], rfl, ?_⟩
    rw [List.nil_append, splitChar_sep_free hB]
    simp
  | cons c A2 ih =>
    obtain ⟨qs, q, h1, h2⟩ := ih
    by_cases hc : c = sep
    · subst hc
      refine ⟨[] :: qs, q, ?_, ?_⟩
      · rw [splitChar_cons_sep, h1]
        rfl
      · rw [List.cons_append, splitChar_cons_sep, h2]
        rfl
    · obtain ⟨g, gs, hg1, hg2⟩ := splitChar_cons_ne hc A2
      obtain ⟨g2, gs2, hg3, hg4⟩ := splitChar_cons_ne hc (A2 ++ B)
      rw [h1] at hg1
      rw [h2] at hg3
      rcases qs with _ | ⟨q0, qs2⟩
      · rw [List.nil_append] at hg1 hg3
        injection hg1 with e1 e2
        injection hg3 with e3 e4
        subst e1; subst e2; subst e3; subst e4
        refine ⟨[], c :: q, hg2, ?_⟩
        rw [List.cons_append, hg4]
        rfl
      · rw [List.cons_append] at hg1 hg3
        injection hg1 with e1 e2
        injection hg3 with e3 e4
        subst e1; subst e2; subst e3; subst e4
        refine ⟨(c :: q0) :: qs2, q, ?_, ?_⟩
        · rw [hg2]
          simp
        · rw [List.cons_append, hg4]
          simp

theorem splitChar_take_init {sep : Char} :
    ∀ (l : List Char) (k : Nat), ∃ qs q q2 rest,
      splitChar sep (l.take k) = qs ++ [q] ∧
      splitChar sep l = qs ++ q2 :: rest := by
  intro l
  induction l with
  | nil =>
    intro k
    exact ⟨[], [], [], [], by simp [splitChar], by simp [splitChar]⟩
  | cons c t ih =>
    intro k
    cases k with
    | zero =>
      rcases h : splitChar sep (c :: t) with _ | ⟨g, gs⟩
      · exact absurd h (splitChar_ne_nil sep _)
      · exact ⟨[], [], g, gs, by simp [splitChar], by simp⟩
    | succ k2 =>
      obtain ⟨qs, q, q2, rest, h1, h2⟩ := ih k2
      rw [List.take_succ_cons]
      by_cases hc : c = sep
      · subst hc
        refine ⟨[] :: qs, q, q2, rest, ?_, ?_⟩
        · rw [splitChar_cons_sep, h1]
          rfl
        · rw [splitChar_cons_sep, h2]
          rfl
      · obtain ⟨g, gs, hg1, hg2⟩ := splitChar_cons_ne hc (t.take k2)
        obtain ⟨g2, gs2, hg3, hg4⟩ := splitChar_cons_ne hc t
        rw [h1] at hg1
        rw [h2] at hg3
        rcases qs with _ | ⟨q0, qs2⟩
        · rw [List.nil_append] at hg1 hg3
          injection hg1 with e1 e2
          injection hg3 with e3 e4
          subst e1; subst e2; subst e3; subst e4
          exact ⟨[], c :: q, c :: q2, rest, hg2, hg4⟩
        · rw [List.cons_append] at hg1 hg3
          injection hg1 with e1 e2
          injection hg3 with e3 e4
          subst e1; subst e2; subst e3; subst e4
          exact ⟨(c :: q0) :: qs2, q, q2, rest, by rw [hg2]; simp, by rw [hg4]; simp⟩

theorem pySliceTo_eq_take (n : Int) (l : List Char) : ∃ k, pySliceTo n l = l.take k := by
  unfold pySliceTo
  split
  · exact ⟨n.toNat, rfl⟩
  · exact ⟨l.length - (-n).toNat, rfl⟩

theorem digit_not_illegal {c : Char} (h : c.isDigit = true) : c ∉ illegalCharacters := by
  intro hm
  have hb := toNat_bounds_of_isDigit h
  have hall : ∀ d ∈ illegalCharacters, d.toNat < 48 ∨ 57 < d.toNat := by decide
  rcases hall c hm with h1 | h1 <;> omega

theorem toLower_digit {c : Char} (h : c.isDigit = true) : c.toLower = c := by
  have hb := toNat_bounds_of_isDigit h
  unfold Char.toLower
  rw [if_neg]
  simp only [Bool.and_eq_true, decide_eq_true_eq, not_and]
  intro h1
  omega

theorem pyLower_digits {l : List Char} (h : ∀ c ∈ l, c.isDigit = true) : pyLower l = l := by
  unfold pyLower
  have h1 : l.map Char.toLower = l.map id :=
    List.map_congr_left (fun c hc => toLower_digit (h c hc))
  rw [h1, List.map_id]

theorem digits_stem_not_reserved {l : List Char} (h : ∀ c ∈ l, c.isDigit = true) :
    (⟨pyLower l⟩ : String) ∉ reservedFileNames := by
  rw [pyLower_digits h]
  intro hm
  have hd : ∀ s ∈ reservedFileNames, ∃ ch ∈ s.data, ch.isDigit = false := by decide
  obtain ⟨ch, hch, hchd⟩ := hd _ hm
  exact absurd (h ch hch) (by simp [hchd])

theorem long_stem_not_reserved {p : List Char} (h : 15 ≤ p.length) :
    (⟨pyLower p⟩ : String) ∉ reservedFileNames := by
  intro hm
  have h6 : ∀ s ∈ reservedFileNames, s.data.length ≤ 6 := by decide
  have h7 : (pyLower p).length ≤ 6 := h6 _ hm
  have h8 : (pyLower p).length = p.length := by
    unfold pyLower
    exact List.length_map _ _
  omega

theorem mappedName_no_illegal (u : List Char) :
    ∀ c ∈ mappedNameNoAffix u, c ∉ illegalCharacters := by
  intro c hc
  have hfix : mappedNameNoAffix u =
      joinSep '.' ((splitChar '.' (clippedFilteredName u)).map fixedPart) := rfl
  rw [hfix] at hc
  rcases mem_of_mem_joinSep hc with rfl | ⟨p2, hp2, hcp2⟩
  · decide
  · rcases List.mem_map.mp hp2 with ⟨p, hp, rfl⟩
    rcases fixedPart_chars hcp2 with rfl | hcp
    · decide
    · exact mem_clippedFilteredName (mem_of_mem_splitChar hp hcp)

theorem mappedName_stems_ok (u : List Char) :
    ∀ p ∈ splitChar '.' (mappedNameNoAffix u),
      (⟨pyLower p⟩ : String) ∉ reservedFileNames := by
  intro p hp
  have hfix : mappedNameNoAffix u =
      joinSep '.' ((splitChar '.' (clippedFilteredName u)).map fixedPart) := rfl
  rw [hfix] at hp
  rw [splitChar_joinSep '.' _ (by
      rcases h : splitChar '.' (clippedFilteredName u) with _ | _
      · exact absurd h (splitChar_ne_nil _ _)
      · simp)
    (by
      intro p2 hp2
      rcases List.mem_map.mp hp2 with ⟨p0, hp0, rfl⟩
      exact fixedPart_sep_free (splitChar_parts_sep_free _ _ _ hp0))] at hp
  rcases List.mem_map.mp hp with ⟨p0, _, rfl⟩
  exact fixedPart_stem_ok p0

theorem mappedName_length_le (u : List Char) :
    (mappedNameNoAffix u).length ≤ maxFileNameLength + reservedStemCount u := by
  have hfix : mappedNameNoAffix u =
      joinSep '.' ((splitChar '.' (clippedFilteredName u)).map fixedPart) := rfl
  rw [hfix, joinSep_map_fixedPart_length _ (splitChar_ne_nil _ _), joinSep_splitChar]
  have := clippedFilteredName_length_le u
  unfold reservedStemCount
  omega

theorem userNameToFileName_empty_affix (u : String) (existing : List String) (hu : u ≠ "") :
    userNameToFileName u existing "" "" =
      if (⟨pyLower (mappedNameNoAffix u.data)⟩ : String) ∈ existing
      then handleClash1 (⟨mappedNameNoAffix u.data⟩ : String) existing "" ""
      else some (⟨mappedNameNoAffix u.data⟩ : String) := by
  simp only [userNameToFileName]
  rw [if_neg (by simp [hu])]
  simp only [eq_self_iff_true, true_and]
  have harith : (maxFileNameLength : Int) - (("" : String).length : Int) -
      (("" : String).length : Int) = (maxFileNameLength : Int) := by
    simp
  rw [harith]
  have hbody : fixReservedParts (pySliceTo (maxFileNameLength : Int)
      (filterUserName (if u.data.head? = some '.' then
        '_' :: u.data.tail else u.data))) = mappedNameNoAffix u.data := rfl
  rw [hbody]
  have hfull : (("" : String) ++ (⟨mappedNameNoAffix u.data⟩ : String) ++ ("" : String)) =
      (⟨mappedNameNoAffix u.data⟩ : String) := by
    apply String.ext
    simp [String.data_append]
  rw [hfull]

theorem handleClash1Loop_some {un : List Char} {existing : List String} {pfx sfx : String} :
    ∀ {fuel counter : Nat} {r : String},
      handleClash1Loop un existing pfx sfx fuel counter = some r →
      ∃ c, (c = counter ∨ c < clash1MaxCounter) ∧
        r = pfx ++ (⟨un ++ zfill 15 (natDigits c)⟩ : String) ++ sfx := by
  intro fuel
  induction fuel with
  | zero => intro counter r h; exact absurd h (by simp [handleClash1Loop])
  | succ f ih =>
    intro counter r h
    rw [handleClash1Loop] at h
    split at h
    · exact ⟨counter, Or.inl rfl, (Option.some.inj h).symm⟩
    · split at h
      · exact absurd h (by simp)
      · next hcap =>
        obtain ⟨c, hc1, hc2⟩ := ih h
        refine ⟨c, Or.inr ?_, hc2⟩
        rcases hc1 with rfl | hc1
        · omega
        · exact hc1

theorem handleClash2Loop_some {existing : List String} {pfx sfx : String} {maxValue : Nat} :
    ∀ {fuel counter : Nat} {r : String},
      handleClash2Loop existing pfx sfx maxValue fuel counter = some r →
      ∃ c, (c = counter ∨ c < maxValue) ∧
        r = pfx ++ (⟨natDigits c⟩ : String) ++ sfx := by
  intro fuel
  induction fuel with
  | zero => intro counter r h; exact absurd h (by simp [handleClash2Loop])
  | succ f ih =>
    intro counter r h
    rw [handleClash2Loop] at h
    split at h
    · exact ⟨counter, Or.inl rfl, (Option.some.inj h).symm⟩
    · split at h
      · exact absurd h (by simp)
      · next hcap =>
        obtain ⟨c, hc1, hc2⟩ := ih h
        refine ⟨c, Or.inr ?_, hc2⟩
        rcases hc1 with rfl | hc1
        · omega
        · exact hc1

theorem handleClash2_empty_affix_props {existing : List String} {r : String}
    (h : handleClash2 existing "" "" = some r) :
    (∀ c ∈ r.data, c ∉ illegalCharacters) ∧
    (∀ p ∈ splitChar '.' r.data, (⟨pyLower p⟩ : String) ∉ reservedFileNames) ∧
    r.length ≤ maxFileNameLength := by
  unfold handleClash2 at h
  rw [if_neg (by decide)] at h
  simp only [] at h
  obtain ⟨c, hc1, hc2⟩ := handleClash2Loop_some h
  subst hc2
  have hdig : ∀ ch ∈ natDigits c, ch.isDigit = true := natDigits_all_digits c
  have hdata : (("" : String) ++ (⟨natDigits c⟩ : String) ++ ("" : String)).data =
      natDigits c := by
    simp [String.data_append]
  have hcb : c < 10 ^ maxFileNameLength := by
    rcases hc1 with rfl | hc1
    · exact Nat.one_lt_pow (by norm_num [maxFileNameLength]) (by norm_num)
    · have he : maxFileNameLength - ("" : String).length - ("" : String).length =
          maxFileNameLength := rfl
      rw [he] at hc1
      exact lt_of_lt_of_le hc1 (Nat.sub_le _ _)
  refine ⟨?_, ?_, ?_⟩
  · rw [hdata]
    intro ch hch
    exact digit_not_illegal (hdig ch hch)
  · rw [hdata, splitChar_sep_free (fun hdot => absurd (hdig '.' hdot) (by decide))]
    intro p hp
    rw [List.mem_singleton] at hp
    subst hp
    exact digits_stem_not_reserved hdig
  · have h1 : (("" : String) ++ (⟨natDigits c⟩ : String) ++ ("" : String)).length =
        (natDigits c).length := by
      show (("" : String) ++ (⟨natDigits c⟩ : String) ++ ("" : String)).data.length = _
      rw [hdata]
    rw [h1]
    exact natDigits_length_le (by norm_num [maxFileNameLength]) hcb

theorem clash1_name_props {un : List Char} {existing : List String} {r : String}
    (hch : ∀ c ∈ un, c ∉ illegalCharacters)
    (hstem : ∃ qs q, splitChar '.' un = qs ++ [q] ∧
      ∀ p ∈ qs, (⟨pyLower p⟩ : String) ∉ reservedFileNames)
    (hlen : un.length + 15 ≤ maxFileNameLength)
    (h : handleClash1Loop un existing "" "" clash1MaxCounter 1 = some r) :
    (∀ c ∈ r.data, c ∉ illegalCharacters) ∧
    (∀ p ∈ splitChar '.' r.data, (⟨pyLower p⟩ : String) ∉ reservedFileNames) ∧
    r.length ≤ maxFileNameLength := by
  obtain ⟨c, hc1, hc2⟩ := handleClash1Loop_some h
  subst hc2
  have hcb : c < 10 ^ 15 := by
    rcases hc1 with rfl | hc1
    · norm_num
    · calc c < clash1MaxCounter := hc1
        _ < 10 ^ 15 := by norm_num [clash1MaxCounter]
  have hdigD : ∀ ch ∈ zfill 15 (natDigits c), ch.isDigit = true :=
    zfill_all_digits (natDigits_all_digits c)
  have hDlen : (zfill 15 (natDigits c)).length = 15 :=
    zfill_length_of_le (natDigits_length_le (by norm_num) hcb)
  have hdata : (("" : String) ++ (⟨un ++ zfill 15 (natDigits c)⟩ : String) ++
      ("" : String)).data = un ++ zfill 15 (natDigits c) := by
    simp [String.data_append]
  refine ⟨?_, ?_, ?_⟩
  · rw [hdata]
    intro ch hch2
    rcases List.mem_append.mp hch2 with h1 | h1
    · exact hch ch h1
    · exact digit_not_illegal (hdigD ch h1)
  · rw [hdata]
    obtain ⟨qs, q, hsp, hqs⟩ := hstem
    have hdotD : '.' ∉ zfill 15 (natDigits c) :=
      fun hdot => absurd (hdigD '.' hdot) (by decide)
    obtain ⟨qs2, q2, h1, h2⟩ := splitChar_append_free hdotD un
    rw [hsp] at h1
    obtain ⟨rfl, e2⟩ := List.append_inj' h1 rfl
    injection e2 with e3 e4
    subst e3
    rw [h2]
    intro p hp
    rcases List.mem_append.mp hp with h3 | h3
    · exact hqs p h3
    · rw [List.mem_singleton] at h3
      subst h3
      apply long_stem_not_reserved
      rw [List.length_append, hDlen]
      omega
  · have h1 : (("" : String) ++ (⟨un ++ zfill 15 (natDigits c)⟩ : String) ++
        ("" : String)).length = un.length + 15 := by
      show (("" : String) ++ (⟨un ++ zfill 15 (natDigits c)⟩ : String) ++
        ("" : String)).data.length = _
      rw [hdata, List.length_append, hDlen]
    rw [h1]
    exact hlen

theorem handleClash1_empty_affix_props {M : List Char} {existing : List String} {r : String}
    (hM1 : ∀ c ∈ M, c ∉ illegalCharacters)
    (hM2 : ∀ p ∈ splitChar '.' M, (⟨pyLower p⟩ : String) ∉ reservedFileNames)
    (h : handleClash1 (⟨M⟩ : String) existing "" "" = some r) :
    (∀ c ∈ r.data, c ∉ illegalCharacters) ∧
    (∀ p ∈ splitChar '.' r.data, (⟨pyLower p⟩ : String) ∉ reservedFileNames) ∧
    r.length ≤ maxFileNameLength := by
  unfold handleClash1 at h
  simp only [] at h
  generalize hU : (if ("" : String).length + (⟨M⟩ : String).length + ("" : String).length +
        15 > maxFileNameLength then
      pySliceTo ((maxFileNameLength : Int) - (("" : String).length + (⟨M⟩ : String).length +
        ("" : String).length + 15)) (⟨M⟩ : String).data
    else (⟨M⟩ : String).data) = U at h
  have hUlen : U.length + 15 ≤ maxFileNameLength := by
    rw [← hU]
    have e0 : ("" : String).length = 0 := rfl
    have e1 : (⟨M⟩ : String).length = M.length := rfl
    have e2 : (⟨M⟩ : String).data.length = M.length := rfl
    have hml : maxFileNameLength = 255 := rfl
    split
    · next hbig =>
      unfold pySliceTo
      split
      · next hpos =>
        exfalso
        omega
      · next hneg =>
        rw [List.length_take]
        omega
    · next hsmall =>
      omega
  have hUtake : ∃ k, U = M.take k := by
    rw [← hU]
    split
    · obtain ⟨k, hk⟩ := pySliceTo_eq_take ((maxFileNameLength : Int) -
        (("" : String).length + (⟨M⟩ : String).length + ("" : String).length + 15))
        ((⟨M⟩ : String).data)
      exact ⟨k, hk⟩
    · exact ⟨M.length, (List.take_length _).symm⟩
  obtain ⟨k, hk⟩ := hUtake
  subst hk
  rcases hloop : handleClash1Loop (M.take k) existing "" "" clash1MaxCounter 1 with _ | r0
  · rw [hloop] at h
    simp only at h
    exact handleClash2_empty_affix_props h
  · rw [hloop] at h
    simp only at h
    obtain rfl := Option.some.inj h
    refine clash1_name_props ?_ ?_ hUlen hloop
    · intro c hc
      exact hM1 c (List.mem_of_mem_take hc)
    · obtain ⟨qs, q, q2, rest, hsp1, hsp2⟩ := splitChar_take_init M k
      refine ⟨qs, q, hsp1, ?_⟩
      intro p hp
      exact hM2 p (by rw [hsp2]; exact List.mem_append_left _ hp)

/-- C4 (amended): for every non-empty name with empty prefix and suffix
and every existing-name set, any file name the mapper returns - directly,
through the `handleClash1` counter fallback, or through the
`handleClash2` fallback - contains no illegal character and no
dot-separated stem that is case-insensitively a bare reserved name, and
its length is at most 255 plus the number of reserved stems of the
transliterated name (the fallback names stay within 255 outright). -/
theorem C4_name_legality_amended :
    ∀ (u : String) (existing : List String) (r : String), u ≠ "" →
      userNameToFileName u existing "" "" = some r →
      (∀ c ∈ r.data, c ∉ illegalCharacters) ∧
      (∀ p ∈ splitChar '.' r.data, (⟨pyLower p⟩ : String) ∉ reservedFileNames) ∧
      r.length ≤ maxFileNameLength + reservedStemCount u.data := by
  intro u existing r hu h
  rw [userNameToFileName_empty_affix u existing hu] at h
  by_cases hcl : (⟨pyLower (mappedNameNoAffix u.data)⟩ : String) ∈ existing
  · rw [if_pos hcl] at h
    have hp := handleClash1_empty_affix_props (mappedName_no_illegal u.data)
      (mappedName_stems_ok u.data) h
    exact ⟨hp.1, hp.2.1, Nat.le_trans hp.2.2 (Nat.le_add_right _ _)⟩
  · rw [if_neg hcl] at h
    obtain rfl : (⟨mappedNameNoAffix u.data⟩ : String) = r := Option.some.inj h
    exact ⟨mappedName_no_illegal u.data, mappedName_stems_ok u.data,
      mappedName_length_le u.data⟩

set_option maxRecDepth 40000 in
/-- Witness for C4 (amended) at a concrete input that collides with the
existing set and is resolved through the `handleClash1` counter. -/
theorem C4_name_legality_amended_witness :
    (∀ c ∈ (("_con.A_000000000000001") : String).data, c ∉ illegalCharacters) ∧
    (∀ p ∈ splitChar '.' (("_con.A_000000000000001") : String).data,
      (⟨pyLower p⟩ : String) ∉ reservedFileNames) ∧
    (("_con.A_000000000000001") : String).length ≤
      maxFileNameLength + reservedStemCount (("con.A") : String).data :=
  C4_name_legality_amended ("con.A") ["_con.a_"] ("_con.A_000000000000001")
    (by decide) (by decide)

set_option maxRecDepth 1000000 in
/-- C4 (counterexample): a 255-character input whose first stem is the
reserved name `con` maps, with empty prefix and suffix and no clash, to a
256-character file name — the claimed 255 bound fails because the
reserved-stem underscore is inserted after the truncation to 255. -/
theorem C4_length_counterexample :
    ((⟨("con.").data ++ List.replicate 251 'a'⟩ : String)).length = 255 ∧
    (userNameToFileName (⟨("con.").data ++ List.replicate 251 'a'⟩ : String) [] "" "").map
      String.length = some 256 ∧
    maxFileNameLength = 255 := by
  exact ⟨by decide, by decide, rfl⟩

/-! ## Supporting lemmas: claim C6 (format-1 outline ordering) -/

theorem collectOutlineF1_eq (l : List RawElem) :
    collectOutlineF1 l =
      ((l.filterMap classifyOutlineChildF1).filterMap
        (fun it => Sum.elim some (fun _ => Option.none) it),
       (l.filterMap classifyOutlineChildF1).filterMap
        (fun it => Sum.elim (fun _ => Option.none) some it)) := by
  induction l with
  | nil => rfl
  | cons e rest ih =>
    simp only [collectOutlineF1, ih, List.filterMap_cons]
    rcases classifyOutlineChildF1 e with _ | it
    · rfl
    · rcases it with it | p <;> simp

/-- C6: in a format-1 outline, every contour of exactly one `move` point
becomes an anchor and is emitted after all true contours and components;
both groups keep their relative input order (the emitted sequence is
exactly the non-anchor results in order followed by the anchor results in
order), and the claim's example normalizes as stated. -/
theorem C6_format1_anchor_reordering :
    (∀ e : RawElem,
      _normalizeGlifOutlineFormat1 e =
        if e.children.isEmpty ∨
            ((e.children.filterMap classifyOutlineChildF1).filterMap
              (fun it => Sum.elim some (fun _ => Option.none) it) = [] ∧
             (e.children.filterMap classifyOutlineChildF1).filterMap
              (fun it => Sum.elim (fun _ => Option.none) some it) = []) then Option.none
        else some
          ((e.children.filterMap classifyOutlineChildF1).filterMap
              (fun it => Sum.elim some (fun _ => Option.none) it) ++
            ((e.children.filterMap classifyOutlineChildF1).filterMap
              (fun it => Sum.elim (fun _ => Option.none) some it)).map anchorContour)) ∧
    _normalizeGlifOutlineFormat1 (RawElem.mk ("outline") [] [
        RawElem.mk ("contour") []
          [RawElem.mk ("point") [("x", "1"), ("y", "1"), ("type", "line")] []],
        RawElem.mk ("contour") []
          [RawElem.mk ("point") [("x", "0"), ("y", "0"), ("type", "move"), ("name", "top")] []],
        RawElem.mk ("contour") []
          [RawElem.mk ("point") [("x", "3"), ("y", "3"), ("type", "line")] []]]) =
      some [OutItemF1.contour [⟨1, 1, some ("line"), false, none⟩],
        OutItemF1.contour [⟨3, 3, some ("line"), false, none⟩],
        OutItemF1.contour [⟨0, 0, some ("move"), false, some ("top")⟩]] := by
  constructor
  · intro e
    simp only [_normalizeGlifOutlineFormat1, collectOutlineF1_eq]
    by_cases hemp : e.children.isEmpty
    · simp [hemp]
    · by_cases h2 : ((e.children.filterMap classifyOutlineChildF1).filterMap
          (fun it => Sum.elim some (fun _ => Option.none) it) = [] ∧
          (e.children.filterMap classifyOutlineChildF1).filterMap
            (fun it => Sum.elim (fun _ => Option.none) some it) = [])
      · simp [hemp, h2]
      · rw [if_neg hemp, if_neg h2]
        exact (if_neg (not_or.mpr ⟨hemp, h2⟩)).symm
  · decide

/-! ## Supporting lemmas: claim C7 (two-pass rename) -/

theorem tempName_injective {i j : Nat} (h : tempName i = tempName j) : i = j := by
  have hd : natDigits i = natDigits j := by
    have h2 := congrArg String.data h
    simp only [tempName, String.data_append] at h2
    exact List.append_cancel_left h2
  have h3 := congrArg digitsVal hd
  rwa [digitsVal_natDigits, digitsVal_natDigits] at h3

theorem renameFS_comm {α : Type} (f : FS α) (a b c d : String)
    (hac : a ≠ c) (had : a ≠ d) (hbc : b ≠ c) (hbd : b ≠ d) :
    renameFS (renameFS f a b) c d = renameFS (renameFS f c d) a b := by
  funext n
  by_cases hnd : n = d <;> by_cases hnc : n = c <;> by_cases hnb : n = b <;>
    by_cases hna : n = a <;>
    simp_all [renameFS, Ne.symm hac, Ne.symm had, Ne.symm hbc, Ne.symm hbd]

theorem renamePass2_renameFS {α : Type} :
    ∀ (m : List (String × String)) (f : FS α) (t n : String),
      (∀ q ∈ m, q.1 ≠ t ∧ q.1 ≠ n ∧ q.2 ≠ t ∧ q.2 ≠ n) →
      renamePass2 m (renameFS f t n) = renameFS (renamePass2 m f) t n := by
  intro m
  induction m with
  | nil => intro f t n _; rfl
  | cons q rest ih =>
    intro f t n h
    obtain ⟨t', n'⟩ := q
    obtain ⟨h1, h2, h3, h4⟩ := h (t', n') (by simp)
    simp only [renamePass2]
    rw [renameFS_comm f t n t' n' (Ne.symm h1) (Ne.symm h3) (Ne.symm h2) (Ne.symm h4)]
    exact ih _ _ _ (fun p hp => h p (List.mem_cons_of_mem _ hp))

theorem renamePass1_pending {α : Type} :
    ∀ (l : List (String × String)) (i : Nat) (fs : FS α),
      ∀ q ∈ (renamePass1 i l fs).2,
        ∃ j, i ≤ j ∧ j < i + l.length ∧ q.1 = tempName j ∧ q.2 ∈ l.map Prod.snd := by
  intro l
  induction l with
  | nil => intro i fs q hq; simp [renamePass1] at hq
  | cons p rest ih =>
    intro i fs q hq
    obtain ⟨o, n⟩ := p
    rw [renamePass1] at hq
    by_cases hon : o = n
    · rw [if_pos hon] at hq
      obtain ⟨j, hj1, hj2, hj3, hj4⟩ := ih (i + 1) fs q hq
      exact ⟨j, by omega, by simp only [List.length_cons]; omega, hj3,
        by simp only [List.map_cons]; exact List.mem_cons_of_mem _ hj4⟩
    · rw [if_neg hon] at hq
      simp only [] at hq
      rcases hr : renamePass1 (i + 1) rest (renameFS fs o (tempName i)) with ⟨fs2, m⟩
      rw [hr] at hq
      simp only at hq
      rcases List.mem_cons.mp hq with rfl | hq2
      · exact ⟨i, le_refl i, by simp only [List.length_cons]; omega, rfl, by simp⟩
      · obtain ⟨j, hj1, hj2, hj3, hj4⟩ := ih (i + 1) (renameFS fs o (tempName i)) q
          (by rw [hr]; exact hq2)
        exact ⟨j, by omega, by simp only [List.length_cons]; omega, hj3,
          by simp only [List.map_cons]; exact List.mem_cons_of_mem _ hj4⟩

theorem renameGlyphFilesAux_cons_eq {α : Type} (i : Nat) (o n : String)
    (rest : List (String × String)) (fs : FS α) (hon : o = n) :
    renameGlyphFilesAux i ((o, n) :: rest) fs = renameGlyphFilesAux (i + 1) rest fs := by
  simp only [renameGlyphFilesAux, renamePass1, if_pos hon]

theorem renameGlyphFilesAux_cons_ne {α : Type} (i : Nat) (o n : String)
    (rest : List (String × String)) (fs : FS α) (hon : ¬ o = n)
    (hdisj : ∀ q ∈ (renamePass1 (i + 1) rest (renameFS fs o (tempName i))).2,
      q.1 ≠ tempName i ∧ q.1 ≠ n ∧ q.2 ≠ tempName i ∧ q.2 ≠ n) :
    renameGlyphFilesAux i ((o, n) :: rest) fs =
      renameFS (renameGlyphFilesAux (i + 1) rest (renameFS fs o (tempName i)))
        (tempName i) n := by
  rcases hr : renamePass1 (i + 1) rest (renameFS fs o (tempName i)) with ⟨fs2, m⟩
  have h1 : renamePass1 i ((o, n) :: rest) fs = (fs2, (tempName i, n) :: m) := by
    rw [renamePass1, if_neg hon]
    simp only []
    rw [hr]
  simp only [renameGlyphFilesAux, h1, renamePass2]
  rw [hr]
  exact renamePass2_renameFS m fs2 (tempName i) n (by rw [hr] at hdisj; exact hdisj)

theorem renameGlyphFilesAux_spec {α : Type} :
    ∀ (l : List (String × String)) (i : Nat) (fs : FS α),
      (l.map Prod.fst).Nodup →
      (l.map Prod.snd).Nodup →
      (∀ j, i ≤ j → j < i + l.length → ∀ p ∈ l, p.1 ≠ tempName j ∧ p.2 ≠ tempName j) →
      (∀ p ∈ l, renameGlyphFilesAux i l fs p.2 = fs p.1) ∧
      (∀ s : String, (∀ p ∈ l, s ≠ p.1 ∧ s ≠ p.2) →
        (∀ j, i ≤ j → j < i + l.length → s ≠ tempName j) →
        renameGlyphFilesAux i l fs s = fs s) := by
  intro l
  induction l with
  | nil =>
    intro i fs _ _ _
    exact ⟨fun p hp => absurd hp (List.not_mem_nil p), fun s _ _ => rfl⟩
  | cons p rest ih =>
    intro i fs hold hnew htemp
    obtain ⟨o, n⟩ := p
    have hco : o ∉ rest.map Prod.fst ∧ (rest.map Prod.fst).Nodup := by
      rw [List.map_cons, List.nodup_cons] at hold; exact hold
    have hcn : n ∉ rest.map Prod.snd ∧ (rest.map Prod.snd).Nodup := by
      rw [List.map_cons, List.nodup_cons] at hnew; exact hnew
    have htempr : ∀ j, i + 1 ≤ j → j < (i + 1) + rest.length →
        ∀ q ∈ rest, q.1 ≠ tempName j ∧ q.2 ≠ tempName j := by
      intro j hj1 hj2 q hq
      exact htemp j (by omega) (by simp only [List.length_cons]; omega) q
        (List.mem_cons_of_mem _ hq)
    by_cases hon : o = n
    · rw [renameGlyphFilesAux_cons_eq i o n rest fs hon]
      obtain ⟨IH1, IH2⟩ := ih (i + 1) fs hco.2 hcn.2 htempr
      constructor
      · intro q hq
        rcases List.mem_cons.mp hq with rfl | hq2
        · subst hon
          show renameGlyphFilesAux (i + 1) rest fs o = fs o
          refine IH2 o (fun q hq => ⟨?_, ?_⟩) ?_
          · intro h
            exact hco.1 (by rw [h]; exact List.mem_map_of_mem Prod.fst hq)
          · intro h
            exact hcn.1 (by rw [h]; exact List.mem_map_of_mem Prod.snd hq)
          · intro j hj1 hj2
            exact (htemp j (by omega) (by simp only [List.length_cons]; omega) (o, o)
              (List.mem_cons_self _ _)).1
        · exact IH1 q hq2
      · intro s hs htemps
        exact IH2 s (fun q hq => hs q (List.mem_cons_of_mem _ hq))
          (fun j hj1 hj2 => htemps j (by omega) (by simp only [List.length_cons]; omega))
    · have hdisj : ∀ q ∈ (renamePass1 (i + 1) rest (renameFS fs o (tempName i))).2,
          q.1 ≠ tempName i ∧ q.1 ≠ n ∧ q.2 ≠ tempName i ∧ q.2 ≠ n := by
        intro q hq
        obtain ⟨j, hj1, hj2, hq1, hq2⟩ :=
          renamePass1_pending rest (i + 1) (renameFS fs o (tempName i)) q hq
        obtain ⟨p2, hp2, hp2e⟩ := List.mem_map.mp hq2
        refine ⟨?_, ?_, ?_, ?_⟩
        · rw [hq1]
          intro h
          have := tempName_injective h
          omega
        · rw [hq1]
          exact Ne.symm ((htemp j (by omega) (by simp only [List.length_cons]; omega) (o, n)
            (List.mem_cons_self _ _)).2)
        · rw [← hp2e]
          exact (htemp i (le_refl i) (by simp only [List.length_cons]; omega) p2
            (List.mem_cons_of_mem _ hp2)).2
        · rw [← hp2e]
          intro h
          exact hcn.1 (by rw [← h]; exact List.mem_map_of_mem Prod.snd hp2)
      rw [renameGlyphFilesAux_cons_ne i o n rest fs hon hdisj]
      obtain ⟨IH1, IH2⟩ := ih (i + 1) (renameFS fs o (tempName i)) hco.2 hcn.2 htempr
      have htin : ∀ q ∈ rest, tempName i ≠ q.1 ∧ tempName i ≠ q.2 := by
        intro q hq
        have h := htemp i (le_refl i) (by simp only [List.length_cons]; omega) q
          (List.mem_cons_of_mem _ hq)
        exact ⟨Ne.symm h.1, Ne.symm h.2⟩
      have htit : ∀ j, i + 1 ≤ j → j < (i + 1) + rest.length → tempName i ≠ tempName j := by
        intro j hj1 _ h
        have := tempName_injective h
        omega
      constructor
      · intro q hq
        rcases List.mem_cons.mp hq with rfl | hq2
        · show renameFS (renameGlyphFilesAux (i + 1) rest (renameFS fs o (tempName i)))
            (tempName i) n n = fs o
          have e1 : renameFS (renameGlyphFilesAux (i + 1) rest (renameFS fs o (tempName i)))
              (tempName i) n n =
              renameGlyphFilesAux (i + 1) rest (renameFS fs o (tempName i)) (tempName i) := by
            simp [renameFS]
          rw [e1, IH2 (tempName i) htin htit]
          simp [renameFS]
        · have hq2n : q.2 ≠ n := by
            intro h
            exact hcn.1 (by rw [← h]; exact List.mem_map_of_mem Prod.snd hq2)
          have hq2t : q.2 ≠ tempName i :=
            (htemp i (le_refl i) (by simp only [List.length_cons]; omega) q
              (List.mem_cons_of_mem _ hq2)).2
          have hq1t : q.1 ≠ tempName i :=
            (htemp i (le_refl i) (by simp only [List.length_cons]; omega) q
              (List.mem_cons_of_mem _ hq2)).1
          have hq1o : q.1 ≠ o := by
            intro h
            exact hco.1 (by rw [← h]; exact List.mem_map_of_mem Prod.fst hq2)
          show renameFS (renameGlyphFilesAux (i + 1) rest (renameFS fs o (tempName i)))
            (tempName i) n q.2 = fs q.1
          have e1 : renameFS (renameGlyphFilesAux (i + 1) rest (renameFS fs o (tempName i)))
              (tempName i) n q.2 =
              renameGlyphFilesAux (i + 1) rest (renameFS fs o (tempName i)) q.2 := by
            simp [renameFS, hq2n, hq2t]
          rw [e1, IH1 q hq2]
          simp [renameFS, hq1t, hq1o]
      · intro s hs htemps
        have hsn : s ≠ n := (hs (o, n) (List.mem_cons_self _ _)).2
        have hso : s ≠ o := (hs (o, n) (List.mem_cons_self _ _)).1
        have hst : s ≠ tempName i :=
          htemps i (le_refl i) (by simp only [List.length_cons]; omega)
        have e1 : renameFS (renameGlyphFilesAux (i + 1) rest (renameFS fs o (tempName i)))
            (tempName i) n s =
            renameGlyphFilesAux (i + 1) rest (renameFS fs o (tempName i)) s := by
          simp [renameFS, hsn, hst]
        rw [e1, IH2 s (fun q hq => hs q (List.mem_cons_of_mem _ hq))
          (fun j hj1 hj2 => htemps j (by omega) (by simp only [List.length_cons]; omega))]
        simp [renameFS, hst, hso]

/-- C7: for every `(oldName, newName)` mapping with distinct old names,
distinct new names, and no name colliding with the index-tagged temporary
names (which the temporaries' reserved prefix guarantees in practice),
the two-pass rename - pass 1 moves each changed entry to
`org.unifiedfontobject.normalizer.<index>`, pass 2 moves each temporary
to its final name, identical pairs untouched - puts every entry's
content under its new name (so rename cycles such as x-to-y, y-to-x are
handled without loss), and leaves every uninvolved name unchanged. -/
theorem C7_two_phase_rename {α : Type} (entries : List (String × String)) (fs : FS α)
    (hold : (entries.map Prod.fst).Nodup)
    (hnew : (entries.map Prod.snd).Nodup)
    (htemp : ∀ j, j < entries.length → ∀ p ∈ entries,
      p.1 ≠ tempName j ∧ p.2 ≠ tempName j) :
    (∀ p ∈ entries, renameGlyphFiles entries fs p.2 = fs p.1) ∧
    (∀ s : String, (∀ p ∈ entries, s ≠ p.1 ∧ s ≠ p.2) →
      (∀ j, j < entries.length → s ≠ tempName j) →
      renameGlyphFiles entries fs s = fs s) := by
  have h := renameGlyphFilesAux_spec entries 0 fs hold hnew
    (fun j _ hj2 p hp => htemp j (by omega) p hp)
  exact ⟨fun p hp => h.1 p hp,
    fun s hs ht => h.2 s hs (fun j _ hj2 => ht j (by omega))⟩

/-- Witness for C7: the swap cycle x-to-y, y-to-x on a store mapping x
to 1 and y to 2 ends with y holding 1 (x's old content). -/
theorem C7_two_phase_rename_witness :
    renameGlyphFiles [("x", "y"), ("y", "x")]
      (fun s => if s = "x" then some 1 else if s = "y" then some 2 else (Option.none : Option Nat))
      "y" = some 1 :=
  (C7_two_phase_rename [("x", "y"), ("y", "x")]
      (fun s => if s = "x" then some 1 else if s = "y" then some 2 else Option.none)
      (by decide) (by decide) (by decide)).1 ("x", "y") (by decide)

/-! ## Supporting lemmas: claim C10 (mod-time round trip) -/

theorem formatFixed_no_space_nl (prec : Nat) (q : ℚ) :
    ∀ c ∈ formatFixed prec q, c ≠ ' ' ∧ c ≠ '\n' := by
  intro c hc
  have h := no_space_in_formatFixed prec q c hc
  constructor <;> (rintro rfl; exact absurd h (by decide))

theorem modTimeLine_ne_nil (p : String × ℚ) : modTimeLine p ≠ [] := by
  simp [modTimeLine]

theorem no_break_in_formatFixed (prec : Nat) (q : ℚ) :
    ∀ c ∈ formatFixed prec q, isLineBreak c = false := by
  intro c hc
  simp only [formatFixed, List.mem_append, List.mem_cons] at hc
  rcases hc with (h | h) | h | h
  · split at h
    · simp at h
      subst h
      rfl
    · simp at h
  · exact isLineBreak_of_isDigit (natDigits_all_digits _ _ h)
  · subst h; rfl
  · exact isLineBreak_of_isDigit (zfill_all_digits (natDigits_all_digits _) _ h)

theorem modTimeLine_break_free (p : String × ℚ)
    (h : ∀ c ∈ p.1.data, isLineBreak c = false) :
    ∀ c ∈ modTimeLine p, isLineBreak c = false := by
  intro c hc
  simp only [modTimeLine, List.mem_append, List.mem_cons] at hc
  rcases hc with h1 | h1 | h1
  · exact no_break_in_formatFixed 1 p.2 _ h1
  · subst h1; rfl
  · exact h c h1

theorem pySplitFirstSpace_append :
    ∀ (A : List Char), (∀ c ∈ A, c ≠ ' ') → ∀ B : List Char,
      pySplitFirstSpace (A ++ ' ' :: B) = some (A, B) := by
  intro A
  induction A with
  | nil => intro _ B; simp [pySplitFirstSpace]
  | cons c rest ih =>
    intro h B
    have hc : c ≠ ' ' := h c (List.mem_cons_self _ _)
    simp only [List.cons_append, pySplitFirstSpace, if_neg hc, List.append_eq,
      ih (fun d hd => h d (List.mem_cons_of_mem _ hd)) B, Option.map_some']

theorem readModTimeLine_modTimeLine (p : String × ℚ) :
    readModTimeLine (modTimeLine p) = some (p.1, roundTo 1 p.2) := by
  unfold readModTimeLine modTimeLine
  rw [pySplitFirstSpace_append (formatFixed 1 p.2)
    (fun c hc => (formatFixed_no_space_nl 1 p.2 c hc).1) p.1.data]
  simp only
  rw [parse_formatFixed (by norm_num) p.2]
  rfl

theorem mapM_readModTimeLine :
    ∀ l : List (String × ℚ),
      (l.map modTimeLine).mapM readModTimeLine =
        some (l.map (fun p => (p.1, roundTo 1 p.2))) := by
  intro l
  induction l with
  | nil => rfl
  | cons p rest ih =>
    rw [List.map_cons, List.map_cons, List.mapM_cons, readModTimeLine_modTimeLine, ih]
    rfl

theorem append_flatMap_eq_joinSep :
    ∀ (ls : List (List Char)) (hd : List Char),
      hd ++ ls.flatMap (fun l => '\n' :: l) = joinSep '\n' (hd :: ls) := by
  intro ls
  induction ls with
  | nil => intro hd; simp [joinSep]
  | cons g gs ih =>
    intro hd
    rw [List.flatMap_cons,
      show joinSep '\n' (hd :: g :: gs) = hd ++ '\n' :: joinSep '\n' (g :: gs) from rfl,
      ← ih g]
    simp

theorem flatMap_map_cons {α : Type} (f : α → List Char) :
    ∀ l : List α,
      l.flatMap (fun p => '\n' :: f p) = (l.map f).flatMap (fun s => '\n' :: s) := by
  intro l
  induction l with
  | nil => rfl
  | cons a t ih => simp only [List.flatMap_cons, List.map_cons, ih]

theorem pySplitlines_break_free :
    ∀ {A : List Char}, (∀ c ∈ A, isLineBreak c = false) → A ≠ [] →
      pySplitlines A = [A] := by
  intro A
  induction A with
  | nil => intro _ hne; exact absurd rfl hne
  | cons c t ih =>
    intro hA _
    have hc := hA c (List.mem_cons_self _ _)
    rcases t with _ | ⟨d, t'⟩
    · simp [pySplitlines, hc]
    · have hih := ih (fun x hx => hA x (List.mem_cons_of_mem _ hx)) (by simp)
      have hcr : ¬(c = '\r' ∧ d = '\n') := by
        rintro ⟨rfl, -⟩
        exact absurd hc (by decide)
      simp only [pySplitlines, if_neg hcr, hc, Bool.false_eq_true, if_false, hih]

theorem pySplitlines_newline_append :
    ∀ (A : List Char), (∀ c ∈ A, isLineBreak c = false) → ∀ t : List Char,
      pySplitlines (A ++ '\n' :: t) = A :: pySplitlines t := by
  intro A
  induction A with
  | nil =>
    intro _ t
    have hb : isLineBreak '\n' = true := by decide
    rcases t with _ | ⟨d, t'⟩
    · simp [pySplitlines, hb]
    · have h1 : ¬('\n' = '\r' ∧ d = '\n') := by
        rintro ⟨h, -⟩
        exact absurd h (by decide)
      simp [pySplitlines, h1, hb]
  | cons c A' ih =>
    intro hA t
    have hc := hA c (List.mem_cons_self _ _)
    have hih := ih (fun x hx => hA x (List.mem_cons_of_mem _ hx)) t
    rcases hE : A' ++ '\n' :: t with _ | ⟨d, w⟩
    · exact absurd hE (by simp)
    · have hcr : ¬(c = '\r' ∧ d = '\n') := by
        rintro ⟨rfl, -⟩
        exact absurd hc (by decide)
      rw [List.cons_append, hE]
      simp only [pySplitlines, if_neg hcr, hc, Bool.false_eq_true, if_false]
      rw [← hE, hih]

theorem pySplitlines_header_lines :
    ∀ (ls : List (List Char)) (hd : List Char), hd ≠ [] →
      (∀ c ∈ hd, isLineBreak c = false) →
      (∀ l ∈ ls, ∀ c ∈ l, isLineBreak c = false) →
      (∀ l ∈ ls, l ≠ []) →
      pySplitlines (hd ++ ls.flatMap (fun l => '\n' :: l)) = hd :: ls := by
  intro ls
  induction ls with
  | nil =>
    intro hd hhd hhdf _ _
    rw [List.flatMap_nil, List.append_nil]
    exact pySplitlines_break_free hhdf hhd
  | cons g gs ih =>
    intro hd hhd hhdf hlf hln
    rw [List.flatMap_cons,
      show ('\n' :: g) ++ gs.flatMap (fun l => '\n' :: l) =
        '\n' :: (g ++ gs.flatMap (fun l => '\n' :: l)) from rfl,
      pySplitlines_newline_append hd hhdf,
      ih g (hln g (List.mem_cons_self _ _)) (hlf g (List.mem_cons_self _ _))
        (fun l hl => hlf l (List.mem_cons_of_mem _ hl))
        (fun l hl => hln l (List.mem_cons_of_mem _ hl))]

theorem alookup_map_value {β : Type} (f : β → β) (k : String) :
    ∀ l : List (String × β),
      alookup k (l.map (fun p => (p.1, f p.2))) = (alookup k l).map f := by
  intro l
  induction l with
  | nil => rfl
  | cons p t ih =>
    simp only [List.map_cons, alookup]
    by_cases h : p.1 = k
    · rw [if_pos h, if_pos h]; rfl
    · rw [if_neg h, if_neg h, ih]

theorem alookup_perm {β : Type} {l1 l2 : List (String × β)} (h : l1.Perm l2) :
    (l1.map Prod.fst).Nodup → ∀ k : String, alookup k l1 = alookup k l2 := by
  induction h with
  | nil => intro _ k; rfl
  | cons p hperm ih =>
    intro hn k
    rw [List.map_cons, List.nodup_cons] at hn
    simp only [alookup]
    by_cases hp : p.1 = k
    · rw [if_pos hp, if_pos hp]
    · rw [if_neg hp, if_neg hp]
      exact ih hn.2 k
  | swap x y t =>
    intro hn k
    have hxy : y.1 ≠ x.1 := by
      rw [List.map_cons, List.nodup_cons] at hn
      intro h0
      exact hn.1 (by rw [h0]; simp)
    simp only [alookup]
    by_cases h1 : y.1 = k <;> by_cases h2 : x.1 = k
    · exact absurd (h1.trans h2.symm) hxy
    · rw [if_pos h1, if_neg h2, if_pos h1]
    · rw [if_neg h1, if_pos h2, if_pos h2]
    · rw [if_neg h1, if_neg h2, if_neg h2, if_neg h1]
  | trans h1 h2 ih1 ih2 =>
    intro hn k
    rw [ih1 hn k, ih2 (((h1.map Prod.fst).nodup_iff).mp hn) k]

theorem alookup_of_mem_nodup {β : Type} :
    ∀ {l : List (String × β)}, (l.map Prod.fst).Nodup →
      ∀ p ∈ l, alookup p.1 l = some p.2 := by
  intro l
  induction l with
  | nil => intro _ p hp; exact absurd hp (List.not_mem_nil p)
  | cons q t ih =>
    intro hn p hp
    rw [List.map_cons, List.nodup_cons] at hn
    rcases List.mem_cons.mp hp with rfl | hp2
    · simp [alookup]
    · have hne : q.1 ≠ p.1 := by
        intro h0
        exact hn.1 (by rw [h0]; exact List.mem_map_of_mem Prod.fst hp2)
      simp only [alookup, if_neg hne]
      exact ih hn.2 p hp2

theorem alookup_some_mem {β : Type} :
    ∀ {l : List (String × β)} {k : String} {v : β},
      alookup k l = some v → ∃ p ∈ l, p.2 = v := by
  intro l
  induction l with
  | nil => intro k v h; exact absurd h (by simp [alookup])
  | cons q t ih =>
    intro k v h
    rw [alookup] at h
    by_cases hq : q.1 = k
    · rw [if_pos hq] at h
      exact ⟨q, List.mem_cons_self _ _, Option.some.inj h⟩
    · rw [if_neg hq] at h
      obtain ⟨p, hp, he⟩ := ih h
      exact ⟨p, List.mem_cons_of_mem _ hp, he⟩

theorem readModTimes_storeModTimes (m : List (String × ℚ))
    (hnl : ∀ p ∈ m, ∀ c ∈ p.1.data, isLineBreak c = false) :
    readModTimes (some (storeModTimes m)) =
      some ((List.insertionSort modTimeLE m).map (fun p => (p.1, roundTo 1 p.2))) := by
  have hdata : (storeModTimes m).data =
      (("version: ").data ++ normalizerVersion.data) ++
        ((List.insertionSort modTimeLE m).map modTimeLine).flatMap (fun l => '\n' :: l) := by
    show (("version: ").data ++ normalizerVersion.data) ++
        (List.insertionSort modTimeLE m).flatMap (fun p => '\n' :: modTimeLine p) = _
    rw [flatMap_map_cons modTimeLine]
  have hmem : ∀ p ∈ List.insertionSort modTimeLE m, p ∈ m :=
    fun p hp => (List.perm_insertionSort modTimeLE m).mem_iff.mp hp
  have hsplit : pySplitlines ((("version: ").data ++ normalizerVersion.data) ++
      ((List.insertionSort modTimeLE m).map modTimeLine).flatMap (fun l => '\n' :: l)) =
      (("version: ").data ++ normalizerVersion.data) ::
        (List.insertionSort modTimeLE m).map modTimeLine :=
    pySplitlines_header_lines _ _ (by decide) (by decide)
      (fun l hl => by
        obtain ⟨p, hp, rfl⟩ := List.mem_map.mp hl
        exact modTimeLine_break_free p (hnl p (hmem p hp)))
      (fun l hl => by
        obtain ⟨p, hp, rfl⟩ := List.mem_map.mp hl
        exact modTimeLine_ne_nil p)
  have hne : ¬ storeModTimes m = "" := by
    intro h0
    have h1 : (storeModTimes m).data = [] := by rw [h0]
    rw [hdata] at h1
    rcases List.append_eq_nil.mp h1 with ⟨h2, _⟩
    rcases List.append_eq_nil.mp h2 with ⟨h3, _⟩
    exact absurd h3 (by decide)
  have hver : readVersion (("version: ").data ++ normalizerVersion.data) =
      normalizerVersion.data := by decide
  simp only [readModTimes]
  rw [if_neg hne, hdata, hsplit]
  simp only
  rw [if_neg (not_not_intro hver)]
  exact mapM_readModTimeLine (List.insertionSort modTimeLE m)

/-- C10 (amended): for a mapping with distinct keys free of every
`splitlines` break character, storing with `storeModTimes` and reading
back with `readModTimes` under the same version yields exactly the
entries with each time rounded to one fractional decimal digit (keys
unchanged, read back in sorted order); as a mapping (dict), every key
looks up to the rounded original value, and the round trip is the
identity exactly when every stored time already equals its one-decimal
rendering. -/
theorem C10_mod_times_round_trip (m : List (String × ℚ))
    (hnd : (m.map Prod.fst).Nodup)
    (hnl : ∀ p ∈ m, ∀ c ∈ p.1.data, isLineBreak c = false) :
    readModTimes (some (storeModTimes m)) =
      some ((List.insertionSort modTimeLE m).map (fun p => (p.1, roundTo 1 p.2))) ∧
    (∀ k : String,
      alookup k ((List.insertionSort modTimeLE m).map (fun p => (p.1, roundTo 1 p.2))) =
        (alookup k m).map (roundTo 1)) ∧
    ((∀ k : String,
        alookup k ((List.insertionSort modTimeLE m).map (fun p => (p.1, roundTo 1 p.2))) =
          alookup k m) ↔ ∀ p ∈ m, roundTo 1 p.2 = p.2) := by
  have hb : ∀ k : String,
      alookup k ((List.insertionSort modTimeLE m).map (fun p => (p.1, roundTo 1 p.2))) =
        (alookup k m).map (roundTo 1) := by
    intro k
    rw [alookup_map_value (roundTo 1) k (List.insertionSort modTimeLE m),
      alookup_perm (List.perm_insertionSort modTimeLE m)
        (((List.perm_insertionSort modTimeLE m).map Prod.fst).nodup_iff.mpr hnd) k]
  refine ⟨readModTimes_storeModTimes m hnl, hb, ?_, ?_⟩
  · intro H p hp
    have h1 := H p.1
    rw [hb p.1, alookup_of_mem_nodup hnd p hp] at h1
    simpa using h1
  · intro H k
    rw [hb k]
    rcases hk : alookup k m with _ | v
    · rfl
    · obtain ⟨p, hp, rfl⟩ := alookup_some_mem hk
      simp [H p hp]

/-- C10 counterexample: the claim's universal round trip fails for a key
containing a newline - storing the single entry with key `a\nb` produces
a data line that `splitlines` cuts in two, and reading back raises
`ValueError` (modelled `none`) instead of returning the mapping. -/
theorem C10_newline_key_counterexample :
    readModTimes (some (storeModTimes [(("a\nb"), mkRat 1 1)])) = none := by decide

/-- Witness for C10: the singleton mapping of `f` to 1.5 (already its own
one-decimal rendering) round-trips to itself. -/
theorem C10_mod_times_round_trip_witness :
    readModTimes (some (storeModTimes [(("f"), mkRat 3 2)])) =
      some [(("f"), mkRat 3 2)] := by
  have h := (C10_mod_times_round_trip [(("f"), mkRat 3 2)] (by decide) (by decide)).1
  rw [h]
  decide
